import Mathlib

/-
A formal model of the k-means clustering implementations in
k_means_clustering.c (sequential engine), k_means_clustering_omp_cpu.c
(thread-parallel engine) and k_means_clustering_omp_gpu.c (accelerator
offload engine).

Modelling conventions.
Machine doubles are modelled as exact rationals extended with a NaN value
(type F below).  In this program, every division whose divisor is zero has
a dividend that is exactly zero (cluster sums are reset to 0.0 and nothing
is accumulated into an empty cluster), and IEEE 0.0/0.0 yields NaN, so the
model lets division by zero produce NaN; the plus/minus infinity cases of
IEEE division cannot arise at these sites.  DBL_MAX is kept as its exact
finite value (2 - 2^-52) * 2^1023 = 2^1024 - 2^971, because calculateNearst
initialises its running minimum with the finite constant DBL_MAX, which is
observable behaviour.
The C observation array (x, y, group) is a single array whose group fields
are mutated in place; it is modelled as a list of records, and each mutation
pass returns the updated list.
The random initial grouping rand() % k is modelled by an arbitrary stream
rands : Nat -> Nat of rand() return values, so theorems quantify over all
possible random draws.
The unbounded do/while convergence loops are modelled with explicit fuel;
a run that does not converge within the given fuel returns none.
Indexing clusters[t] with t outside [0, k) is undefined behaviour in C
(it can only happen when calculateNearst returns its -1 sentinel); the
model makes such an access a no-op, and every theorem whose truth depends
on that corner carries hypotheses ruling it out.
In the thread-parallel engine, per-thread partial sums merged inside the
critical section add up to exactly the same rational totals as a single
left-to-right accumulation, because rational addition is associative and
commutative; the accumulation is therefore modelled by the sequential fold.
-/

/-- An idealised IEEE double: an exact rational, or NaN. -/
inductive F where
  | nan : F
  | fin : ℚ → F
deriving DecidableEq

/-- Addition; NaN propagates. -/
def Fadd : F → F → F
  | F.fin a, F.fin b => F.fin (a + b)
  | _, _ => F.nan

/-- Subtraction; NaN propagates. -/
def Fsub : F → F → F
  | F.fin a, F.fin b => F.fin (a - b)
  | _, _ => F.nan

/-- Multiplication; NaN propagates. -/
def Fmul : F → F → F
  | F.fin a, F.fin b => F.fin (a * b)
  | _, _ => F.nan

/-- Division.  A zero divisor yields NaN: in this program the dividend is
exactly zero whenever the divisor is zero, and IEEE 0.0/0.0 = NaN. -/
def Fdiv : F → F → F
  | F.fin a, F.fin b => if b = 0 then F.nan else F.fin (a / b)
  | _, _ => F.nan

/-- The strict less-than test on doubles: any comparison with NaN is false. -/
def Flt : F → F → Bool
  | F.fin a, F.fin b => decide (a < b)
  | _, _ => false

/-- The exact value of DBL_MAX, the largest finite double. -/
def DBL_MAX : ℚ := 2 ^ 1024 - 2 ^ 971

/-- observation from the C sources: a 2-D point with its current group. -/
structure Obs where
  x : ℚ
  y : ℚ
  group : ℤ
deriving DecidableEq

/-- cluster from the C sources: centroid coordinates and member count. -/
structure Cluster where
  x : F
  y : F
  count : ℕ
deriving DecidableEq

/-- The squared Euclidean distance expression used by both classifiers. -/
def distF (px py : ℚ) (c : Cluster) : F :=
  Fadd (Fmul (Fsub c.x (F.fin px)) (Fsub c.x (F.fin px)))
       (Fmul (Fsub c.y (F.fin py)) (Fsub c.y (F.fin py)))

/-- The scan loop of calculateNearst (k_means_clustering.c lines 86-96 and
the identical copy in k_means_clustering_omp_cpu.c): running minimum minD,
current best index, and loop counter i. -/
def nearstAux (px py : ℚ) : List Cluster → F → ℤ → ℕ → ℤ
  | [], _, index, _ => index
  | c :: rest, minD, index, i =>
    let dist := distF px py c
    if Flt dist minD then nearstAux px py rest dist (i : ℤ) (i + 1)
    else nearstAux px py rest minD index (i + 1)

/-- calculateNearst: minD starts at DBL_MAX and index at -1. -/
def calculateNearst (o : Obs) (clusters : List Cluster) : ℤ :=
  nearstAux o.x o.y clusters (F.fin DBL_MAX) (-1) 0

/-- The inner classification loop of the offload region in
k_means_clustering_omp_gpu.c lines 225-237. -/
def gpuNearestAux (px py : ℚ) : List Cluster → F → ℤ → ℕ → ℤ
  | [], _, best, _ => best
  | c :: rest, minD, best, i =>
    let dx := Fsub c.x (F.fin px)
    let dy := Fsub c.y (F.fin py)
    let dist := Fadd (Fmul dx dx) (Fmul dy dy)
    if Flt dist minD then gpuNearestAux px py rest dist (i : ℤ) (i + 1)
    else gpuNearestAux px py rest minD best (i + 1)

/-- One work-item of the offload classification: minD = DBL_MAX, best = -1. -/
def gpuNearest (o : Obs) (clusters : List Cluster) : ℤ :=
  gpuNearestAux o.x o.y clusters (F.fin DBL_MAX) (-1) 0

/-- calculateCentroid (k_means_clustering.c lines 108-123): sum every
observation, set every group to 0, then divide the sums by the count,
which is the number of observations (no guard: size 0 gives 0.0/0.0). -/
def calculateCentroid (obs : List Obs) : Cluster × List Obs :=
  let sx := obs.foldl (fun s o => s + o.x) 0
  let sy := obs.foldl (fun s o => s + o.y) 0
  (⟨Fdiv (F.fin sx) (F.fin (obs.length : ℚ)),
    Fdiv (F.fin sy) (F.fin (obs.length : ℚ)), obs.length⟩,
   obs.map (fun o => ⟨o.x, o.y, 0⟩))

/-- The per-iteration reset of the cluster array: all coordinates and
counts zeroed. -/
def resetClusters (k : ℕ) : List Cluster :=
  List.replicate k ⟨F.fin 0, F.fin 0, 0⟩

/-- Accumulating one observation into its labelled cluster
(clusters[t].x += ..x; ..y += ..y; count++).  An out-of-range label is
undefined behaviour in the C sources; the model leaves the clusters
untouched in that case, and theorems that reach this code carry
hypotheses keeping every label in range. -/
def addObs (cs : List Cluster) (o : Obs) : List Cluster :=
  if o.group < 0 then cs
  else
    match cs[o.group.toNat]? with
    | some c =>
      cs.set o.group.toNat
        ⟨Fadd c.x (F.fin o.x), Fadd c.y (F.fin o.y), c.count + 1⟩
    | none => cs

/-- STEP 2 accumulation over all observations (sequential and, by exact
associativity and commutativity of rational addition, also the merged
per-thread partial sums of the parallel engine). -/
def accumulate (cs : List Cluster) (obs : List Obs) : List Cluster :=
  obs.foldl addObs cs

/-- The offload engine's accumulation guard (k_means_clustering_omp_gpu.c
lines 198-207): only labels g with 0 <= g < k are accumulated. -/
def gpuAddObs (k : ℕ) (cs : List Cluster) (o : Obs) : List Cluster :=
  if 0 ≤ o.group ∧ o.group < (k : ℤ) then
    match cs[o.group.toNat]? with
    | some c =>
      cs.set o.group.toNat
        ⟨Fadd c.x (F.fin o.x), Fadd c.y (F.fin o.y), c.count + 1⟩
    | none => cs
  else cs

/-- Offload-engine accumulation over all observations. -/
def gpuAccumulate (k : ℕ) (cs : List Cluster) (obs : List Obs) : List Cluster :=
  obs.foldl (gpuAddObs k) cs

/-- The sequential engine's centroid division (k_means_clustering.c lines
190-194): every cluster's sums are divided by its count, with no guard
against a zero count. -/
def divideAll (cs : List Cluster) : List Cluster :=
  cs.map (fun c =>
    ⟨Fdiv c.x (F.fin (c.count : ℚ)), Fdiv c.y (F.fin (c.count : ℚ)), c.count⟩)

/-- The guarded centroid division of the thread-parallel engine
(k_means_clustering_omp_cpu.c lines 146-154) and the offload engine
(k_means_clustering_omp_gpu.c lines 209-216): clusters with count 0 are
left untouched. -/
def divideGuarded (cs : List Cluster) : List Cluster :=
  cs.map (fun c =>
    if 0 < c.count then
      ⟨Fdiv c.x (F.fin (c.count : ℚ)), Fdiv c.y (F.fin (c.count : ℚ)), c.count⟩
    else c)

/-- STEP 3 and 4: reclassify every observation against the given clusters,
counting how many groups change.  Used by the sequential engine and, as a
race-free reduction over disjoint points, by the thread-parallel engine. -/
def assignStep (cs : List Cluster) : List Obs → List Obs × ℕ
  | [] => ([], 0)
  | o :: os =>
    let t := calculateNearst o cs
    let r := assignStep cs os
    (⟨o.x, o.y, t⟩ :: r.1, (if t ≠ o.group then 1 else 0) + r.2)

/-- The offload engine's reassignment pass: same structure, with the
classification done by the offloaded work-item loop. -/
def gpuAssignStep (cs : List Cluster) : List Obs → List Obs × ℕ
  | [] => ([], 0)
  | o :: os =>
    let best := gpuNearest o cs
    let r := gpuAssignStep cs os
    (⟨o.x, o.y, best⟩ :: r.1, (if best ≠ o.group then 1 else 0) + r.2)

/-- One iteration of the sequential do/while body: reset, accumulate,
divide (unguarded), reassign.  Returns the new clusters, the updated
observations and the changed count. -/
def seqIter (k : ℕ) (obs : List Obs) : List Cluster × List Obs × ℕ :=
  let cs := divideAll (accumulate (resetClusters k) obs)
  let a := assignStep cs obs
  (cs, a.1, a.2)

/-- One iteration of the thread-parallel do/while body: identical except
the division is guarded. -/
def ompIter (k : ℕ) (obs : List Obs) : List Cluster × List Obs × ℕ :=
  let cs := divideGuarded (accumulate (resetClusters k) obs)
  let a := assignStep cs obs
  (cs, a.1, a.2)

/-- One iteration of the offload do/while body: guarded accumulation,
guarded division, offloaded reassignment. -/
def gpuIter (k : ℕ) (obs : List Obs) : List Cluster × List Obs × ℕ :=
  let cs := divideGuarded (gpuAccumulate k (resetClusters k) obs)
  let a := gpuAssignStep cs obs
  (cs, a.1, a.2)

/-- The do { ... } while (changed > minAcceptedError) loop of the
sequential engine, with explicit fuel. -/
def seqLoop (k minErr : ℕ) : ℕ → List Obs → Option (List Cluster × List Obs × ℕ)
  | 0, _ => none
  | fuel + 1, obs =>
    let r := seqIter k obs
    if r.2.2 > minErr then seqLoop k minErr fuel r.2.1 else some r

/-- The thread-parallel do/while loop. -/
def ompLoop (k minErr : ℕ) : ℕ → List Obs → Option (List Cluster × List Obs × ℕ)
  | 0, _ => none
  | fuel + 1, obs =>
    let r := ompIter k obs
    if r.2.2 > minErr then ompLoop k minErr fuel r.2.1 else some r

/-- The offload do/while loop. -/
def gpuLoop (k minErr : ℕ) : ℕ → List Obs → Option (List Cluster × List Obs × ℕ)
  | 0, _ => none
  | fuel + 1, obs =>
    let r := gpuIter k obs
    if r.2.2 > minErr then gpuLoop k minErr fuel r.2.1 else some r

/-- STEP 1: observations[j].group = rand() % k, one rand() draw per
observation in order; j is the index of the next draw. -/
def initGroupsAux (k : ℕ) (rands : ℕ → ℕ) : ℕ → List Obs → List Obs
  | _, [] => []
  | j, o :: os => ⟨o.x, o.y, ((rands j % k : ℕ) : ℤ)⟩ :: initGroupsAux k rands (j + 1) os

/-- The whole random initialisation pass. -/
def initGroups (k : ℕ) (rands : ℕ → ℕ) (obs : List Obs) : List Obs :=
  initGroupsAux k rands 0 obs

/-- The degenerate singleton branch shared by the sequential and
thread-parallel engines: k clusters are zero-initialised and the first n
are overwritten with singleton clusters, observation i getting group i. -/
def singletonClusters (k : ℕ) (obs : List Obs) : List Cluster :=
  obs.map (fun o => ⟨F.fin o.x, F.fin o.y, 1⟩) ++
    List.replicate (k - obs.length) ⟨F.fin 0, F.fin 0, 0⟩

/-- Group numbering of the singleton branch: observation j gets group j. -/
def numberGroups : ℕ → List Obs → List Obs
  | _, [] => []
  | j, o :: os => ⟨o.x, o.y, (j : ℤ)⟩ :: numberGroups (j + 1) os

/-- kMeans of k_means_clustering.c: the sequential engine.  k is the C int
argument; fuel bounds the unbounded convergence loop; result is the
cluster array together with the observation array (whose group fields
carry the final labels), or none if the loop did not exit within fuel. -/
def kMeans (obs : List Obs) (k : ℤ) (rands : ℕ → ℕ) (fuel : ℕ) :
    Option (List Cluster × List Obs) :=
  if k ≤ 1 then
    let r := calculateCentroid obs
    some ([r.1], r.2)
  else if k < (obs.length : ℤ) then
    (seqLoop k.toNat (obs.length / 10000) fuel (initGroups k.toNat rands obs)).map
      (fun r => (r.1, r.2.1))
  else
    some (singletonClusters k.toNat obs, numberGroups 0 obs)

/-- kMeans_omp of k_means_clustering_omp_cpu.c: the thread-parallel
engine.  Identical branch structure; the k <= 1 branch repeats the body of
calculateCentroid inline. -/
def kMeans_omp (obs : List Obs) (k : ℤ) (rands : ℕ → ℕ) (fuel : ℕ) :
    Option (List Cluster × List Obs) :=
  if k ≤ 1 then
    let sx := obs.foldl (fun s o => s + o.x) 0
    let sy := obs.foldl (fun s o => s + o.y) 0
    some ([⟨Fdiv (F.fin sx) (F.fin (obs.length : ℚ)),
            Fdiv (F.fin sy) (F.fin (obs.length : ℚ)), obs.length⟩],
          obs.map (fun o => ⟨o.x, o.y, 0⟩))
  else if k < (obs.length : ℤ) then
    (ompLoop k.toNat (obs.length / 10000) fuel (initGroups k.toNat rands obs)).map
      (fun r => (r.1, r.2.1))
  else
    some (singletonClusters k.toNat obs, numberGroups 0 obs)

/-- kMeans_omp_gpu of k_means_clustering_omp_gpu.c: the offload engine.
It has no singleton branch: every k >= 2 runs the general loop.  The
k <= 1 branch divides the sums by n with no guard (n = 0 gives 0.0/0.0). -/
def kMeans_omp_gpu (obs : List Obs) (k : ℤ) (rands : ℕ → ℕ) (fuel : ℕ) :
    Option (List Cluster × List Obs) :=
  if k ≤ 1 then
    let sx := obs.foldl (fun s o => s + o.x) 0
    let sy := obs.foldl (fun s o => s + o.y) 0
    some ([⟨Fdiv (F.fin sx) (F.fin (obs.length : ℚ)),
            Fdiv (F.fin sy) (F.fin (obs.length : ℚ)), obs.length⟩],
          obs.map (fun o => ⟨o.x, o.y, 0⟩))
  else
    (gpuLoop k.toNat (obs.length / 10000) fuel (initGroups k.toNat rands obs)).map
      (fun r => (r.1, r.2.1))

/-- The squared Euclidean distance between a point and finite centroid
coordinates, as an exact rational. -/
def sqDist (px py a b : ℚ) : ℚ :=
  (a - px) * (a - px) + (b - py) * (b - py)

/-- Sum of the member counts of a cluster array. -/
def sumCounts (cs : List Cluster) : ℕ :=
  (cs.map (fun c => c.count)).sum

/-- Number of clusters with a non-zero member count. -/
def nonemptyCount (cs : List Cluster) : ℕ :=
  (cs.filter (fun c => c.count != 0)).length

/-- Every label lies in [0, k). -/
def GroupsIn (k : ℕ) (obs : List Obs) : Prop :=
  ∀ o ∈ obs, 0 ≤ o.group ∧ o.group < (k : ℤ)

/-- Every coordinate has absolute value at most B. -/
def CoordsBounded (B : ℚ) (obs : List Obs) : Prop :=
  ∀ o ∈ obs, |o.x| ≤ B ∧ |o.y| ≤ B

/-- After accumulation, every cluster holds finite coordinate sums bounded
by its member count times B. -/
def SumsBounded (B : ℚ) (cs : List Cluster) : Prop :=
  ∀ c ∈ cs, ∃ a b, c.x = F.fin a ∧ c.y = F.fin b ∧
    |a| ≤ (c.count : ℚ) * B ∧ |b| ≤ (c.count : ℚ) * B

/-- After the division step, every non-empty cluster is a finite centroid
with coordinates bounded by B. -/
def CentroidsBounded (B : ℚ) (cs : List Cluster) : Prop :=
  ∀ c ∈ cs, c.count ≠ 0 → ∃ a b, c.x = F.fin a ∧ c.y = F.fin b ∧
    |a| ≤ B ∧ |b| ≤ B

/-- Default cluster used for total indexing in specifications. -/
def cDefault : Cluster := ⟨F.fin 0, F.fin 0, 0⟩

/-- Default observation used for total indexing in specifications. -/
def oDefault : Obs := ⟨0, 0, 0⟩

/-- The rational value of the squared distance of a cluster with finite
coordinates (0 for a NaN cluster; only used under finiteness hypotheses). -/
def theDist (px py : ℚ) (c : Cluster) : ℚ :=
  match c.x, c.y with
  | F.fin a, F.fin b => sqDist px py a b
  | _, _ => 0

/-- Squared distance of the j-th cluster of a list. -/
def dAt (px py : ℚ) (cs : List Cluster) (j : ℕ) : ℚ :=
  theDist px py (cs.getD j cDefault)

theorem distF_fin {c : Cluster} {a b : ℚ} (px py : ℚ)
    (hx : c.x = F.fin a) (hy : c.y = F.fin b) :
    distF px py c = F.fin (sqDist px py a b) := by
  simp [distF, hx, hy, Fadd, Fsub, Fmul, sqDist]

theorem theDist_fin {c : Cluster} {a b : ℚ} (px py : ℚ)
    (hx : c.x = F.fin a) (hy : c.y = F.fin b) :
    theDist px py c = sqDist px py a b := by
  simp [theDist, hx, hy]

theorem dAt_cons_zero (px py : ℚ) (c : Cluster) (rest : List Cluster) :
    dAt px py (c :: rest) 0 = theDist px py c := rfl

theorem dAt_cons_succ (px py : ℚ) (c : Cluster) (rest : List Cluster) (j : ℕ) :
    dAt px py (c :: rest) (j + 1) = dAt px py rest j := rfl

theorem Flt_fin_fin (a b : ℚ) : Flt (F.fin a) (F.fin b) = decide (a < b) := rfl

theorem Flt_nan_left (m : F) : Flt F.nan m = false := by
  cases m <;> rfl

theorem Fdiv_zero (x : F) : Fdiv x (F.fin 0) = F.nan := by
  cases x <;> simp [Fdiv]

/-- The scan either keeps the incoming index or returns the absolute
position of some scanned element. -/
theorem nearstAux_mem (px py : ℚ) (cs : List Cluster) :
    ∀ (m : F) (idx : ℤ) (i : ℕ),
      nearstAux px py cs m idx i = idx ∨
        ∃ j, j < cs.length ∧ nearstAux px py cs m idx i = (i : ℤ) + (j : ℤ) := by
  induction cs with
  | nil => intro m idx i; left; rfl
  | cons c rest ih =>
    intro m idx i
    rw [nearstAux]
    by_cases h : Flt (distF px py c) m = true
    · simp only [h, if_true]
      rcases ih (distF px py c) (i : ℤ) (i + 1) with h1 | ⟨j, hj, h1⟩
      · right; exact ⟨0, by simp, by rw [h1]; simp⟩
      · right
        refine ⟨j + 1, by simpa using Nat.succ_lt_succ hj, ?_⟩
        rw [h1]; push_cast; ring
    · simp only [eq_false_of_ne_true h, if_false]
      rcases ih m idx (i + 1) with h1 | ⟨j, hj, h1⟩
      · left; exact h1
      · right
        refine ⟨j + 1, by simpa using Nat.succ_lt_succ hj, ?_⟩
        rw [h1]; push_cast; ring

/-- If some scanned element strictly beats the incoming minimum, the scan
returns the absolute position of some scanned element. -/
theorem nearstAux_improve (px py : ℚ) (cs : List Cluster) :
    ∀ (m : ℚ) (idx : ℤ) (i : ℕ),
      (∃ c ∈ cs, Flt (distF px py c) (F.fin m) = true) →
      ∃ j, j < cs.length ∧ nearstAux px py cs (F.fin m) idx i = (i : ℤ) + (j : ℤ) := by
  induction cs with
  | nil => intro m idx i h; simp at h
  | cons c rest ih =>
    intro m idx i h
    rw [nearstAux]
    by_cases hc : Flt (distF px py c) (F.fin m) = true
    · simp only [hc, if_true]
      rcases nearstAux_mem px py rest (distF px py c) (i : ℤ) (i + 1) with h1 | ⟨j, hj, h1⟩
      · exact ⟨0, by simp, by rw [h1]; simp⟩
      · refine ⟨j + 1, by simpa using Nat.succ_lt_succ hj, ?_⟩
        rw [h1]; push_cast; ring
    · simp only [eq_false_of_ne_true hc, if_false]
      have hrest : ∃ c' ∈ rest, Flt (distF px py c') (F.fin m) = true := by
        rcases h with ⟨c', hc', hf⟩
        rcases List.mem_cons.mp hc' with rfl | hmem
        · exact absurd hf hc
        · exact ⟨c', hmem, hf⟩
      rcases ih m idx (i + 1) hrest with ⟨j, hj, h1⟩
      refine ⟨j + 1, by simpa using Nat.succ_lt_succ hj, ?_⟩
      rw [h1]; push_cast; ring

/-- Full characterisation of the scan over clusters with finite
coordinates: either nothing beat the incoming minimum m and the incoming
index survives, or the scan returns the position of the first element
attaining the minimal distance, which beats m. -/
theorem nearstAux_spec (px py : ℚ) (cs : List Cluster) :
    ∀ (m : ℚ) (idx : ℤ) (i : ℕ),
      (∀ c ∈ cs, ∃ a b, c.x = F.fin a ∧ c.y = F.fin b) →
      (nearstAux px py cs (F.fin m) idx i = idx ∧
          ∀ j, j < cs.length → m ≤ dAt px py cs j) ∨
        (∃ j₀, j₀ < cs.length ∧
          nearstAux px py cs (F.fin m) idx i = (i : ℤ) + (j₀ : ℤ) ∧
          dAt px py cs j₀ < m ∧
          (∀ j, j < cs.length → dAt px py cs j₀ ≤ dAt px py cs j) ∧
          (∀ j, j < j₀ → dAt px py cs j₀ < dAt px py cs j)) := by
  induction cs with
  | nil =>
    intro m idx i _
    left
    exact ⟨rfl, by intro j hj; simp at hj⟩
  | cons c rest ih =>
    intro m idx i hfin
    obtain ⟨a, b, hax, hby⟩ := hfin c (List.mem_cons_self c rest)
    have hd : distF px py c = F.fin (sqDist px py a b) := distF_fin px py hax hby
    have hth : theDist px py c = sqDist px py a b := theDist_fin px py hax hby
    have hfin' : ∀ c' ∈ rest, ∃ a b, c'.x = F.fin a ∧ c'.y = F.fin b :=
      fun c' hc' => hfin c' (List.mem_cons_of_mem c hc')
    rw [nearstAux]
    simp only [hd]
    by_cases hlt : sqDist px py a b < m
    · have hflt : Flt (F.fin (sqDist px py a b)) (F.fin m) = true := by
        rw [Flt_fin_fin]; exact decide_eq_true hlt
      rw [if_pos hflt]
      rcases ih (sqDist px py a b) (i : ℤ) (i + 1) hfin' with ⟨heq, hall⟩ | ⟨j₀, hj₀, heq, hlt', hle, hstrict⟩
      · right
        refine ⟨0, Nat.succ_pos _, by rw [heq]; simp, ?_, ?_, ?_⟩
        · rw [dAt_cons_zero, hth]; exact hlt
        · intro j hj
          cases j with
          | zero => exact le_refl _
          | succ j' =>
            rw [dAt_cons_zero, dAt_cons_succ, hth]
            exact hall j' (by simpa using hj)
        · intro j hj; omega
      · right
        refine ⟨j₀ + 1, by simpa using Nat.succ_lt_succ hj₀, ?_, ?_, ?_, ?_⟩
        · rw [heq]; push_cast; ring
        · rw [dAt_cons_succ]; exact lt_trans hlt' hlt
        · intro j hj
          cases j with
          | zero =>
            rw [dAt_cons_succ, dAt_cons_zero, hth]
            exact le_of_lt hlt'
          | succ j' =>
            rw [dAt_cons_succ, dAt_cons_succ]
            exact hle j' (by simpa using hj)
        · intro j hj
          cases j with
          | zero =>
            rw [dAt_cons_succ, dAt_cons_zero, hth]
            exact hlt'
          | succ j' =>
            rw [dAt_cons_succ, dAt_cons_succ]
            exact hstrict j' (by omega)
    · have hflt : Flt (F.fin (sqDist px py a b)) (F.fin m) = false := by
        rw [Flt_fin_fin]; exact decide_eq_false hlt
      rw [if_neg (by rw [hflt]; exact Bool.false_ne_true)]
      rcases ih m idx (i + 1) hfin' with ⟨heq, hall⟩ | ⟨j₀, hj₀, heq, hlt', hle, hstrict⟩
      · left
        refine ⟨heq, ?_⟩
        intro j hj
        cases j with
        | zero => rw [dAt_cons_zero, hth]; exact le_of_not_lt hlt
        | succ j' => rw [dAt_cons_succ]; exact hall j' (by simpa using hj)
      · right
        refine ⟨j₀ + 1, by simpa using Nat.succ_lt_succ hj₀, ?_, ?_, ?_, ?_⟩
        · rw [heq]; push_cast; ring
        · rw [dAt_cons_succ]; exact hlt'
        · intro j hj
          cases j with
          | zero =>
            rw [dAt_cons_succ, dAt_cons_zero, hth]
            exact le_trans (le_of_lt hlt') (le_of_not_lt hlt)
          | succ j' =>
            rw [dAt_cons_succ, dAt_cons_succ]
            exact hle j' (by simpa using hj)
        · intro j hj
          cases j with
          | zero =>
            rw [dAt_cons_succ, dAt_cons_zero, hth]
            exact lt_of_lt_of_le hlt' (le_of_not_lt hlt)
          | succ j' =>
            rw [dAt_cons_succ, dAt_cons_succ]
            exact hstrict j' (by omega)

/-- The offload work-item loop computes exactly the same scan as
calculateNearst: the distance expression and the update rule coincide. -/
theorem gpuNearestAux_eq (px py : ℚ) (cs : List Cluster) :
    ∀ (m : F) (idx : ℤ) (i : ℕ),
      gpuNearestAux px py cs m idx i = nearstAux px py cs m idx i := by
  induction cs with
  | nil => intro m idx i; rfl
  | cons c rest ih =>
    intro m idx i
    rw [gpuNearestAux, nearstAux]
    simp only [distF]
    by_cases h : Flt (Fadd (Fmul (Fsub c.x (F.fin px)) (Fsub c.x (F.fin px)))
        (Fmul (Fsub c.y (F.fin py)) (Fsub c.y (F.fin py)))) m = true
    · rw [if_pos h, if_pos h, ih]
    · rw [if_neg h, if_neg h, ih]

theorem gpuNearest_eq (o : Obs) (cs : List Cluster) :
    gpuNearest o cs = calculateNearst o cs :=
  gpuNearestAux_eq o.x o.y cs (F.fin DBL_MAX) (-1) 0

/-- If some cluster has finite coordinates within DBL_MAX squared distance
of the observation, the classifier returns an index inside the array. -/
theorem calculateNearst_in_range (o : Obs) (cs : List Cluster)
    (h : ∃ c ∈ cs, ∃ a b, c.x = F.fin a ∧ c.y = F.fin b ∧ sqDist o.x o.y a b < DBL_MAX) :
    ∃ j, j < cs.length ∧ calculateNearst o cs = (j : ℤ) := by
  obtain ⟨c, hc, a, b, hax, hby, hlt⟩ := h
  have himp : ∃ c' ∈ cs, Flt (distF o.x o.y c') (F.fin DBL_MAX) = true := by
    refine ⟨c, hc, ?_⟩
    rw [distF_fin o.x o.y hax hby, Flt_fin_fin]
    exact decide_eq_true hlt
  obtain ⟨j, hj, heq⟩ := nearstAux_improve o.x o.y cs DBL_MAX (-1) 0 himp
  exact ⟨j, hj, by rw [calculateNearst, heq]; simp⟩

/-- C2 (counterexample): with a single centroid of finite (but very large)
coordinates, every squared distance reaches DBL_MAX, the running minimum
is never beaten, and calculateNearst returns its sentinel -1 instead of
the minimizing index 0.  In IEEE terms the squared distance overflows to
infinity, and infinity < DBL_MAX is false, so the C code behaves the same
way.  This refutes the claim for finite coordinates in general. -/
theorem C2_counterexample :
    calculateNearst ⟨-(2 ^ 600), 0, 0⟩ [⟨F.fin (2 ^ 600), F.fin 0, 1⟩] = -1 ∧
      (-1 : ℤ) ≠ (0 : ℤ) := by
  constructor
  · norm_num [calculateNearst, nearstAux, distF, Fsub, Fmul, Fadd, Flt, DBL_MAX]
  · decide

/-- C2 (amended): for every point and every non-empty array of centroids
with finite coordinates whose squared distances stay below DBL_MAX, the
classifier returns the lowest index minimizing the squared Euclidean
distance (the first minimum of a left-to-right scan), and the offload
classification loop computes the identical result. -/
theorem C2_nearest_first_argmin (o : Obs) (cs : List Cluster)
    (hne : cs ≠ [])
    (hfin : ∀ c ∈ cs, ∃ a b, c.x = F.fin a ∧ c.y = F.fin b ∧
      sqDist o.x o.y a b < DBL_MAX) :
    ∃ j₀, j₀ < cs.length ∧ calculateNearst o cs = (j₀ : ℤ) ∧
      (∀ j, j < cs.length → dAt o.x o.y cs j₀ ≤ dAt o.x o.y cs j) ∧
      (∀ j, j < j₀ → dAt o.x o.y cs j₀ < dAt o.x o.y cs j) ∧
      gpuNearest o cs = calculateNearst o cs := by
  have hfin' : ∀ c ∈ cs, ∃ a b, c.x = F.fin a ∧ c.y = F.fin b := by
    intro c hc
    obtain ⟨a, b, h1, h2, _⟩ := hfin c hc
    exact ⟨a, b, h1, h2⟩
  cases cs with
  | nil => exact absurd rfl hne
  | cons c rest =>
    obtain ⟨a, b, hax, hby, hlt⟩ := hfin c (List.mem_cons_self c rest)
    have h0 : dAt o.x o.y (c :: rest) 0 = sqDist o.x o.y a b := by
      rw [dAt_cons_zero, theDist_fin o.x o.y hax hby]
    rcases nearstAux_spec o.x o.y (c :: rest) DBL_MAX (-1) 0 hfin' with ⟨_, hall⟩ | ⟨j₀, hj₀, heq, _, hle, hstrict⟩
    · have := hall 0 (Nat.succ_pos _)
      rw [h0] at this
      exact absurd hlt (not_lt.mpr this)
    · refine ⟨j₀, hj₀, ?_, hle, hstrict, gpuNearest_eq _ _⟩
      rw [calculateNearst, heq]
      simp

/-- C2 (witness): the amended theorem applied to a concrete point and two
concrete centroids; the second centroid is strictly nearer. -/
theorem C2_witness :
    ∃ j₀, j₀ < ([⟨F.fin 1, F.fin 0, 1⟩, ⟨F.fin 0, F.fin 0, 2⟩] : List Cluster).length ∧
      calculateNearst ⟨0, 0, 0⟩ [⟨F.fin 1, F.fin 0, 1⟩, ⟨F.fin 0, F.fin 0, 2⟩] = (j₀ : ℤ) ∧
      (∀ j, j < ([⟨F.fin 1, F.fin 0, 1⟩, ⟨F.fin 0, F.fin 0, 2⟩] : List Cluster).length →
        dAt 0 0 [⟨F.fin 1, F.fin 0, 1⟩, ⟨F.fin 0, F.fin 0, 2⟩] j₀ ≤
          dAt 0 0 [⟨F.fin 1, F.fin 0, 1⟩, ⟨F.fin 0, F.fin 0, 2⟩] j) ∧
      (∀ j, j < j₀ →
        dAt 0 0 [⟨F.fin 1, F.fin 0, 1⟩, ⟨F.fin 0, F.fin 0, 2⟩] j₀ <
          dAt 0 0 [⟨F.fin 1, F.fin 0, 1⟩, ⟨F.fin 0, F.fin 0, 2⟩] j) ∧
      gpuNearest ⟨0, 0, 0⟩ [⟨F.fin 1, F.fin 0, 1⟩, ⟨F.fin 0, F.fin 0, 2⟩] =
        calculateNearst ⟨0, 0, 0⟩ [⟨F.fin 1, F.fin 0, 1⟩, ⟨F.fin 0, F.fin 0, 2⟩] := by
  apply C2_nearest_first_argmin
  · simp
  · intro c hc
    simp only [List.mem_cons, List.not_mem_nil, or_false] at hc
    rcases hc with rfl | rfl
    · exact ⟨1, 0, rfl, rfl, by norm_num [sqDist, DBL_MAX]⟩
    · exact ⟨0, 0, rfl, rfl, by norm_num [sqDist, DBL_MAX]⟩

/-- C1 (counterexample): a full sequential run (3 points, k = 2, all
initial draws 0) in which cluster 1 is empty at the update step.  The
sequential engine divides the zero sums by the zero count anyway
(k_means_clustering.c lines 190-194 have no guard), so the returned
centroid 1 is NaN = 0.0/0.0 rather than being left unchanged at its reset
value (0, 0): a division by zero is performed. -/
theorem C1_counterexample :
    kMeans [⟨1, 0, 0⟩, ⟨5, 0, 0⟩, ⟨6, 0, 0⟩] 2 (fun _ => 0) 5 =
      some ([⟨F.fin 4, F.fin 0, 3⟩, ⟨F.nan, F.nan, 0⟩],
            [⟨1, 0, 0⟩, ⟨5, 0, 0⟩, ⟨6, 0, 0⟩]) ∧
      (⟨F.nan, F.nan, 0⟩ : Cluster) ≠ (⟨F.fin 0, F.fin 0, 0⟩ : Cluster) := by
  constructor
  · norm_num [kMeans, seqLoop, seqIter, accumulate, addObs, assignStep,
      calculateNearst, nearstAux, distF, divideAll, resetClusters, initGroups,
      initGroupsAux, Fadd, Fsub, Fmul, Fdiv, Flt, DBL_MAX, List.replicate,
      List.set, Int.toNat_ofNat]
  · simp

/-- C1 (amended): the guarded engines (thread-parallel and offload) do
skip the division when the member count is zero and leave the cluster
descriptor unchanged, but the sequential engine divides unconditionally
and turns an empty cluster into a NaN centroid (0.0/0.0). -/
theorem C1_division_guard (cs : List Cluster) (j : ℕ) (c : Cluster)
    (h : cs[j]? = some c) (h0 : c.count = 0) :
    (divideGuarded cs)[j]? = some c ∧
      (divideAll cs)[j]? = some ⟨F.nan, F.nan, 0⟩ := by
  constructor
  · rw [divideGuarded, List.getElem?_map, h]
    simp [h0]
  · rw [divideAll, List.getElem?_map, h]
    simp [h0, Fdiv_zero]

/-- C1 (witness): the amendment applied to a concrete one-cluster array
with member count zero. -/
theorem C1_witness :
    (divideGuarded [⟨F.fin 0, F.fin 0, 0⟩])[0]? = some ⟨F.fin 0, F.fin 0, 0⟩ ∧
      (divideAll [⟨F.fin 0, F.fin 0, 0⟩])[0]? = some ⟨F.nan, F.nan, 0⟩ :=
  C1_division_guard [⟨F.fin 0, F.fin 0, 0⟩] 0 ⟨F.fin 0, F.fin 0, 0⟩ rfl rfl

/-- C4 (counterexample): three collinear points, k = 2, identical initial
labels {0,0,0} for all three engines.  The sequential engine converges at
once with labels [0,0,0] because the empty cluster's NaN centroid attracts
no point, while the guarded engines leave the empty cluster at (0,0),
which captures the point at (1,0), giving final labels [1,0,0].  The three
engines do not agree on the final labels. -/
theorem C4_counterexample :
    (kMeans [⟨1, 0, 0⟩, ⟨5, 0, 0⟩, ⟨6, 0, 0⟩] 2 (fun _ => 0) 5).map
        (fun r => r.2.map (fun o => o.group)) = some [0, 0, 0] ∧
      (kMeans_omp [⟨1, 0, 0⟩, ⟨5, 0, 0⟩, ⟨6, 0, 0⟩] 2 (fun _ => 0) 5).map
        (fun r => r.2.map (fun o => o.group)) = some [1, 0, 0] ∧
      (kMeans_omp_gpu [⟨1, 0, 0⟩, ⟨5, 0, 0⟩, ⟨6, 0, 0⟩] 2 (fun _ => 0) 5).map
        (fun r => r.2.map (fun o => o.group)) = some [1, 0, 0] ∧
      (some [0, 0, 0] : Option (List ℤ)) ≠ some [1, 0, 0] := by
  refine ⟨?_, ?_, ?_, by simp⟩
  · norm_num [kMeans, seqLoop, seqIter, accumulate, addObs, assignStep,
      calculateNearst, nearstAux, distF, divideAll, resetClusters, initGroups,
      initGroupsAux, Fadd, Fsub, Fmul, Fdiv, Flt, DBL_MAX, List.replicate,
      List.set, Int.toNat_ofNat]
  · norm_num [kMeans_omp, ompLoop, ompIter, accumulate, addObs, assignStep,
      calculateNearst, nearstAux, distF, divideGuarded, resetClusters,
      initGroups, initGroupsAux, Fadd, Fsub, Fmul, Fdiv, Flt, DBL_MAX,
      List.replicate, List.set, Int.toNat_ofNat]
  · norm_num [kMeans_omp_gpu, gpuLoop, gpuIter, gpuAccumulate, gpuAddObs,
      gpuAssignStep, gpuNearest, gpuNearestAux, divideGuarded, resetClusters,
      initGroups, initGroupsAux, Fadd, Fsub, Fmul, Fdiv, Flt, DBL_MAX,
      List.replicate, List.set, Int.toNat_ofNat]

theorem addObs_length (cs : List Cluster) (o : Obs) :
    (addObs cs o).length = cs.length := by
  rw [addObs]
  by_cases hneg : o.group < 0
  · rw [if_pos hneg]
  · rw [if_neg hneg]
    cases h : cs[o.group.toNat]? with
    | none => rfl
    | some c => simp [List.length_set]

/-- With a cluster array of length k, the offload accumulation guard is
equivalent to the unguarded (in-range) accumulation. -/
theorem gpuAddObs_eq (k : ℕ) (cs : List Cluster) (o : Obs) (h : cs.length = k) :
    gpuAddObs k cs o = addObs cs o := by
  rw [gpuAddObs, addObs]
  by_cases hneg : o.group < 0
  · rw [if_pos hneg, if_neg (by omega)]
  · rw [if_neg hneg]
    by_cases hk : o.group < (k : ℤ)
    · rw [if_pos ⟨by omega, hk⟩]
    · rw [if_neg (by omega)]
      have hnone : cs[o.group.toNat]? = none := by
        apply List.getElem?_eq_none
        omega
      rw [hnone]

theorem gpuAccumulate_eq (k : ℕ) (obs : List Obs) :
    ∀ cs : List Cluster, cs.length = k →
      gpuAccumulate k cs obs = accumulate cs obs := by
  induction obs with
  | nil => intro cs _; rfl
  | cons o os ih =>
    intro cs h
    rw [gpuAccumulate, accumulate, List.foldl_cons, List.foldl_cons,
      gpuAddObs_eq k cs o h]
    exact ih (addObs cs o) (by rw [addObs_length]; exact h)

theorem gpuAssignStep_eq (cs : List Cluster) (obs : List Obs) :
    gpuAssignStep cs obs = assignStep cs obs := by
  induction obs with
  | nil => rfl
  | cons o os ih => rw [gpuAssignStep, assignStep, ih, gpuNearest_eq]

theorem gpuIter_eq (k : ℕ) (obs : List Obs) : gpuIter k obs = ompIter k obs := by
  rw [gpuIter, ompIter,
    gpuAccumulate_eq k obs (resetClusters k) (List.length_replicate _ _),
    gpuAssignStep_eq]

theorem gpuLoop_eq (k minErr : ℕ) :
    ∀ (fuel : ℕ) (obs : List Obs),
      gpuLoop k minErr fuel obs = ompLoop k minErr fuel obs := by
  intro fuel
  induction fuel with
  | zero => intro obs; rfl
  | succ n ih =>
    intro obs
    rw [gpuLoop, ompLoop, gpuIter_eq]
    by_cases h : (ompIter k obs).2.2 > minErr
    · rw [if_pos h, if_pos h, ih]
    · rw [if_neg h, if_neg h]

/-- C4 (amended): in the general regime 1 < k < n, the thread-parallel
engine and the offload engine agree exactly: same final centroids, labels
and convergence behaviour, for every input, every draw of initial labels
and every fuel.  (In exact arithmetic the summation order of the parallel
reduction is immaterial; both engines guard the division and the offload
accumulation guard is redundant for in-range labels.)  The sequential
engine is excluded: the counterexample shows its unguarded division makes
its final labels differ once a cluster becomes empty. -/
theorem C4_omp_gpu_agree (obs : List Obs) (k : ℤ) (rands : ℕ → ℕ) (fuel : ℕ)
    (hk : 1 < k) (hn : k < (obs.length : ℤ)) :
    kMeans_omp obs k rands fuel = kMeans_omp_gpu obs k rands fuel := by
  have h1 : ¬ k ≤ 1 := by omega
  rw [kMeans_omp, kMeans_omp_gpu, if_neg h1, if_pos hn, if_neg h1, gpuLoop_eq]

/-- C4 (witness): the amended agreement at the four-point concrete
scenario of the specification with k = 2. -/
theorem C4_witness :
    kMeans_omp [⟨0, 0, 0⟩, ⟨0, 1, 0⟩, ⟨10, 0, 0⟩, ⟨10, 1, 0⟩] 2 (fun _ => 0) 3 =
      kMeans_omp_gpu [⟨0, 0, 0⟩, ⟨0, 1, 0⟩, ⟨10, 0, 0⟩, ⟨10, 1, 0⟩] 2 (fun _ => 0) 3 :=
  C4_omp_gpu_agree _ 2 _ 3 (by norm_num) (by norm_num)

/-- C9: on the empty point set with k <= 1, both the sequential and the
thread-parallel engine divide the zero sums by the zero count
(0.0/0.0, a division by zero) and return a NaN centroid with member count
0 instead of rejecting the input. -/
theorem C9_empty_input (k : ℤ) (rands : ℕ → ℕ) (fuel : ℕ) (hk : k ≤ 1) :
    kMeans [] k rands fuel = some ([⟨F.nan, F.nan, 0⟩], []) ∧
      kMeans_omp [] k rands fuel = some ([⟨F.nan, F.nan, 0⟩], []) := by
  constructor
  · rw [kMeans, if_pos hk]
    norm_num [calculateCentroid, Fdiv]
  · rw [kMeans_omp, if_pos hk]
    norm_num [Fdiv]

/-- C9 (witness): the NaN centroid at the concrete call with k = 1. -/
theorem C9_witness :
    kMeans [] 1 (fun _ => 0) 0 = some ([⟨F.nan, F.nan, 0⟩], []) ∧
      kMeans_omp [] 1 (fun _ => 0) 0 = some ([⟨F.nan, F.nan, 0⟩], []) :=
  C9_empty_input 1 (fun _ => 0) 0 (by norm_num)

theorem foldl_add_eq_sum (f : Obs → ℚ) :
    ∀ (obs : List Obs) (a : ℚ),
      obs.foldl (fun s o => s + f o) a = a + (obs.map f).sum := by
  intro obs
  induction obs with
  | nil => intro a; simp
  | cons o os ih =>
    intro a
    rw [List.foldl_cons, ih, List.map_cons, List.sum_cons]
    ring

/-- C5: for k <= 1 and a non-empty input, the sequential clustering call
returns exactly one centroid, equal to the arithmetic mean of all input
points, with member count n, and zeroes every label; the convergence loop
is never entered. -/
theorem C5_single_mean (obs : List Obs) (k : ℤ) (rands : ℕ → ℕ) (fuel : ℕ)
    (hk : k ≤ 1) (hne : obs ≠ []) :
    kMeans obs k rands fuel =
      some ([⟨F.fin ((obs.map Obs.x).sum / (obs.length : ℚ)),
              F.fin ((obs.map Obs.y).sum / (obs.length : ℚ)), obs.length⟩],
            obs.map (fun o => ⟨o.x, o.y, 0⟩)) := by
  have hn0 : ((obs.length : ℚ)) ≠ 0 := by
    have h1 : obs.length ≠ 0 := fun h => hne (List.length_eq_zero.mp h)
    exact_mod_cast h1
  rw [kMeans, if_pos hk]
  simp only [calculateCentroid, foldl_add_eq_sum, zero_add, Fdiv, if_neg hn0]

/-- C5 (witness): the mean centroid at a concrete two-point call. -/
theorem C5_witness :
    kMeans [⟨1, 2, 7⟩, ⟨3, 4, 9⟩] 1 (fun _ => 0) 0 =
      some ([⟨F.fin (((([⟨1, 2, 7⟩, ⟨3, 4, 9⟩] : List Obs).map Obs.x).sum) /
                (([⟨1, 2, 7⟩, ⟨3, 4, 9⟩] : List Obs).length : ℚ)),
              F.fin (((([⟨1, 2, 7⟩, ⟨3, 4, 9⟩] : List Obs).map Obs.y).sum) /
                (([⟨1, 2, 7⟩, ⟨3, 4, 9⟩] : List Obs).length : ℚ)),
              ([⟨1, 2, 7⟩, ⟨3, 4, 9⟩] : List Obs).length⟩],
            ([⟨1, 2, 7⟩, ⟨3, 4, 9⟩] : List Obs).map (fun o => ⟨o.x, o.y, 0⟩)) :=
  C5_single_mean [⟨1, 2, 7⟩, ⟨3, 4, 9⟩] 1 (fun _ => 0) 0 (by norm_num) (by simp)

theorem singletonClusters_cons (k : ℕ) (o : Obs) (os : List Obs) :
    singletonClusters k (o :: os) =
      ⟨F.fin o.x, F.fin o.y, 1⟩ :: singletonClusters (k - 1) os := by
  rw [singletonClusters, singletonClusters, List.map_cons, List.cons_append,
    List.length_cons]
  have h : k - (os.length + 1) = k - 1 - os.length := by omega
  rw [h]

theorem singletonClusters_length (k : ℕ) (obs : List Obs)
    (h : obs.length ≤ k) : (singletonClusters k obs).length = k := by
  rw [singletonClusters]
  simp only [List.length_append, List.length_map, List.length_replicate]
  omega

theorem singletonClusters_getD_lt (obs : List Obs) :
    ∀ (k j : ℕ), j < obs.length →
      (singletonClusters k obs).getD j cDefault =
        ⟨F.fin ((obs.getD j oDefault).x), F.fin ((obs.getD j oDefault).y), 1⟩ := by
  induction obs with
  | nil => intro k j hj; simp at hj
  | cons o os ih =>
    intro k j hj
    rw [singletonClusters_cons]
    cases j with
    | zero => rfl
    | succ j' => exact ih (k - 1) j' (by simpa using hj)

theorem singletonClusters_getD_ge (obs : List Obs) :
    ∀ (k j : ℕ), obs.length ≤ j → j < k →
      (singletonClusters k obs).getD j cDefault = ⟨F.fin 0, F.fin 0, 0⟩ := by
  induction obs with
  | nil =>
    intro k j _ hjk
    rw [singletonClusters]
    simp only [List.map_nil, List.nil_append, List.length_nil, Nat.sub_zero]
    rw [List.getD_eq_getElem?_getD, List.getElem?_replicate]
    rw [if_pos hjk]
    rfl
  | cons o os ih =>
    intro k j hj hjk
    rw [singletonClusters_cons]
    cases j with
    | zero => simp at hj
    | succ j' =>
      exact ih (k - 1) j' (by simpa using hj) (by omega)

theorem numberGroups_getD (obs : List Obs) :
    ∀ (j0 j : ℕ), j < obs.length →
      ((numberGroups j0 obs).getD j oDefault).group = ((j0 + j : ℕ) : ℤ) := by
  induction obs with
  | nil => intro j0 j hj; simp at hj
  | cons o os ih =>
    intro j0 j hj
    rw [numberGroups]
    cases j with
    | zero => simp
    | succ j' =>
      have := ih (j0 + 1) j' (by simpa using hj)
      rw [List.getD_cons_succ, this]
      congr 1
      omega

theorem nonemptyCount_singleton (obs : List Obs) :
    ∀ k : ℕ, nonemptyCount (singletonClusters k obs) = obs.length := by
  induction obs with
  | nil =>
    intro k
    rw [singletonClusters]
    simp only [List.map_nil, List.nil_append, Nat.sub_zero, List.length_nil]
    rw [nonemptyCount]
    induction k with
    | zero => rfl
    | succ n ihk =>
      rw [List.replicate_succ, List.filter_cons]
      simp only [bne_self_eq_false, Bool.false_eq_true, if_false]
      exact ihk
  | cons o os ih =>
    intro k
    rw [singletonClusters_cons, nonemptyCount, List.filter_cons]
    simp only [List.length_cons]
    have := ih (k - 1)
    rw [nonemptyCount] at this
    simp [this]

/-- C10: for k > n >= 1, both the sequential and the thread-parallel
engine return an array of exactly k cluster descriptors: the first n are
the singleton clusters of the points in input order (with label i for
point i), and every descriptor with index in [n, k) keeps its
zero-initialised state (0, 0) with member count 0. -/
theorem C10_padded_result (obs : List Obs) (k : ℤ) (rands : ℕ → ℕ) (fuel : ℕ)
    (hne : obs ≠ []) (hk : (obs.length : ℤ) < k) :
    kMeans obs k rands fuel = some (singletonClusters k.toNat obs, numberGroups 0 obs) ∧
    kMeans_omp obs k rands fuel = kMeans obs k rands fuel ∧
    (singletonClusters k.toNat obs).length = k.toNat ∧
    (∀ j, j < obs.length →
      (singletonClusters k.toNat obs).getD j cDefault =
        ⟨F.fin ((obs.getD j oDefault).x), F.fin ((obs.getD j oDefault).y), 1⟩ ∧
      ((numberGroups 0 obs).getD j oDefault).group = (j : ℤ)) ∧
    (∀ j, obs.length ≤ j → j < k.toNat →
      (singletonClusters k.toNat obs).getD j cDefault = ⟨F.fin 0, F.fin 0, 0⟩) := by
  have hn1 : 1 ≤ obs.length := by
    cases obs with
    | nil => exact absurd rfl hne
    | cons o os => simp
  have hk1 : ¬ k ≤ 1 := by omega
  have hkn : ¬ k < (obs.length : ℤ) := by omega
  refine ⟨?_, ?_, ?_, ?_, ?_⟩
  · rw [kMeans, if_neg hk1, if_neg hkn]
  · rw [kMeans, kMeans_omp, if_neg hk1, if_neg hkn, if_neg hk1, if_neg hkn]
  · exact singletonClusters_length k.toNat obs (by omega)
  · intro j hj
    refine ⟨singletonClusters_getD_lt obs k.toNat j hj, ?_⟩
    have := numberGroups_getD obs 0 j hj
    simpa using this
  · intro j hj hjk
    exact singletonClusters_getD_ge obs k.toNat j hj hjk

/-- C10 (witness): the padded result at a concrete call with n = 1, k = 3. -/
theorem C10_witness :
    kMeans [⟨2, 3, 0⟩] 3 (fun _ => 0) 0 =
      some (singletonClusters (3 : ℤ).toNat [⟨2, 3, 0⟩], numberGroups 0 [⟨2, 3, 0⟩]) ∧
    kMeans_omp [⟨2, 3, 0⟩] 3 (fun _ => 0) 0 = kMeans [⟨2, 3, 0⟩] 3 (fun _ => 0) 0 ∧
    (singletonClusters (3 : ℤ).toNat [⟨2, 3, 0⟩]).length = (3 : ℤ).toNat ∧
    (∀ j, j < ([⟨2, 3, 0⟩] : List Obs).length →
      (singletonClusters (3 : ℤ).toNat [⟨2, 3, 0⟩]).getD j cDefault =
        ⟨F.fin ((([⟨2, 3, 0⟩] : List Obs).getD j oDefault).x),
         F.fin ((([⟨2, 3, 0⟩] : List Obs).getD j oDefault).y), 1⟩ ∧
      ((numberGroups 0 [⟨2, 3, 0⟩]).getD j oDefault).group = (j : ℤ)) ∧
    (∀ j, ([⟨2, 3, 0⟩] : List Obs).length ≤ j → j < (3 : ℤ).toNat →
      (singletonClusters (3 : ℤ).toNat [⟨2, 3, 0⟩]).getD j cDefault =
        ⟨F.fin 0, F.fin 0, 0⟩) :=
  C10_padded_result [⟨2, 3, 0⟩] 3 (fun _ => 0) 0 (by simp) (by norm_num)

/-- C8 (counterexample): k = 2 <= n = 3, finite coordinates, in-range
labels {0, 0, 1}.  The first update step puts centroid 0 at (0,0) and
centroid 1 at (0, 2^600); for the first two points every squared distance
reaches DBL_MAX (in IEEE arithmetic it overflows to infinity), so the
classifier keeps its sentinel and the assignment step writes label -1,
violating 0 <= label < k. -/
theorem C8_counterexample :
    ((seqIter 2 [⟨2 ^ 600, 0, 0⟩, ⟨-(2 ^ 600), 0, 0⟩, ⟨0, 2 ^ 600, 1⟩]).2.1.map
        (fun o => o.group)) = [-1, -1, 1] ∧ ¬ (0 : ℤ) ≤ -1 := by
  constructor
  · norm_num [seqIter, accumulate, addObs, assignStep, calculateNearst,
      nearstAux, distF, divideAll, resetClusters, Fadd, Fsub, Fmul, Fdiv,
      Flt, DBL_MAX, List.replicate, List.set]
  · decide

theorem initGroupsAux_mem (k : ℕ) (rands : ℕ → ℕ) (hk : 1 ≤ k) :
    ∀ (obs : List Obs) (j : ℕ) (o : Obs), o ∈ initGroupsAux k rands j obs →
      0 ≤ o.group ∧ o.group < (k : ℤ) := by
  intro obs
  induction obs with
  | nil => intro j o ho; simp [initGroupsAux] at ho
  | cons o' os ih =>
    intro j o ho
    rw [initGroupsAux] at ho
    rcases List.mem_cons.mp ho with rfl | hmem
    · refine ⟨Int.ofNat_nonneg _, ?_⟩
      have : rands j % k < k := Nat.mod_lt _ (by omega)
      show ((rands j % k : ℕ) : ℤ) < (k : ℤ)
      exact_mod_cast this
    · exact ih (j + 1) o hmem

/-- C8 (amended): after the random initialisation every label is in
[0, k) for k >= 1, and the assignment step keeps every label in
[0, k) provided each point has some centroid with finite coordinates at
squared distance below DBL_MAX (in particular no overflow); without that
proviso the classifier can keep its sentinel -1, as the counterexample
shows. -/
theorem C8_labels_in_range (k : ℕ) (rands : ℕ → ℕ) (obs : List Obs)
    (cs : List Cluster) (hk : 1 ≤ k)
    (hreach : ∀ o ∈ obs, ∃ c ∈ cs, ∃ a b, c.x = F.fin a ∧ c.y = F.fin b ∧
      sqDist o.x o.y a b < DBL_MAX) :
    (∀ o ∈ initGroups k rands obs, 0 ≤ o.group ∧ o.group < (k : ℤ)) ∧
    (∀ o ∈ (assignStep cs obs).1, 0 ≤ o.group ∧ o.group < (cs.length : ℤ)) := by
  constructor
  · intro o ho
    exact initGroupsAux_mem k rands hk obs 0 o ho
  · induction obs with
    | nil => intro o ho; simp [assignStep] at ho
    | cons o' os ih =>
      intro o ho
      rw [assignStep] at ho
      rcases List.mem_cons.mp ho with rfl | hmem
      · obtain ⟨j, hj, heq⟩ :=
          calculateNearst_in_range o' cs (hreach o' (List.mem_cons_self o' os))
        simp only [heq]
        constructor
        · exact Int.ofNat_nonneg j
        · exact_mod_cast hj
      · exact ih (fun o ho => hreach o (List.mem_cons_of_mem o' ho)) o hmem

/-- C8 (witness): the amended range property at a one-point, one-cluster
instance. -/
theorem C8_witness :
    (∀ o ∈ initGroups 1 (fun _ => 0) [⟨0, 0, 0⟩], 0 ≤ o.group ∧ o.group < (1 : ℤ)) ∧
    (∀ o ∈ (assignStep [⟨F.fin 0, F.fin 0, 1⟩] [⟨0, 0, 0⟩]).1,
      0 ≤ o.group ∧ o.group < (([⟨F.fin 0, F.fin 0, 1⟩] : List Cluster).length : ℤ)) :=
  C8_labels_in_range 1 (fun _ => 0) [⟨0, 0, 0⟩] [⟨F.fin 0, F.fin 0, 1⟩]
    (by norm_num)
    (by
      intro o ho
      simp only [List.mem_singleton] at ho
      subst ho
      exact ⟨⟨F.fin 0, F.fin 0, 1⟩, by simp, 0, 0, rfl, rfl,
        by norm_num [sqDist, DBL_MAX]⟩)

/-- The do/while loop exits exactly when the changed count of the
iteration it just ran is at or below the threshold, and the returned
triple is that iteration's output. -/
theorem seqLoop_exit (k minErr : ℕ) :
    ∀ (fuel : ℕ) (obs : List Obs) (cs : List Cluster) (obs' : List Obs) (ch : ℕ),
      seqLoop k minErr fuel obs = some (cs, obs', ch) →
      ch ≤ minErr ∧ ∃ prev, seqIter k prev = (cs, obs', ch) := by
  intro fuel
  induction fuel with
  | zero =>
    intro obs cs obs' ch h
    rw [seqLoop] at h
    exact absurd h (by simp)
  | succ n ih =>
    intro obs cs obs' ch h
    rw [seqLoop] at h
    by_cases hgt : (seqIter k obs).2.2 > minErr
    · rw [if_pos hgt] at h
      exact ih _ _ _ _ h
    · rw [if_neg hgt] at h
      have heq : seqIter k obs = (cs, obs', ch) := by
        simpa using h
      refine ⟨?_, obs, heq⟩
      have hle : ¬ ch > minErr := by rw [heq] at hgt; exact hgt
      omega

theorem assignStep_fst (cs : List Cluster) (obs : List Obs) :
    (assignStep cs obs).1 = obs.map (fun o => ⟨o.x, o.y, calculateNearst o cs⟩) := by
  induction obs with
  | nil => rfl
  | cons o os ih => simp [assignStep, ih]

theorem calculateNearst_group_irrel (o : Obs) (g : ℤ) (cs : List Cluster) :
    calculateNearst ⟨o.x, o.y, g⟩ cs = calculateNearst o cs := rfl

/-- Re-running the assignment step on its own output changes nothing: the
classifier depends only on the coordinates, which the step preserves. -/
theorem assignStep_rerun (cs : List Cluster) (obs : List Obs) :
    (assignStep cs ((assignStep cs obs).1)).2 = 0 := by
  rw [assignStep_fst]
  induction obs with
  | nil => rfl
  | cons o os ih =>
    rw [List.map_cons, assignStep]
    simp [calculateNearst_group_irrel, ih]

/-- C3: whenever the sequential engine terminates in the general regime
1 < k < n, the convergence loop exited with a final pass that changed at
most floor(n/10000) labels, and re-running the assignment step against
the returned centroids and final labels changes at most floor(n/10000)
labels (indeed none, since the final labels are exactly the classifier
output for the returned centroids). -/
theorem C3_convergence (obs : List Obs) (k : ℤ) (rands : ℕ → ℕ) (fuel : ℕ)
    (cs : List Cluster) (obs₂ : List Obs)
    (hk : 1 < k) (hn : k < (obs.length : ℤ))
    (h : kMeans obs k rands fuel = some (cs, obs₂)) :
    (∃ ch, ch ≤ obs.length / 10000 ∧
      seqLoop k.toNat (obs.length / 10000) fuel (initGroups k.toNat rands obs) =
        some (cs, obs₂, ch)) ∧
    (assignStep cs obs₂).2 ≤ obs.length / 10000 := by
  rw [kMeans, if_neg (by omega), if_pos hn] at h
  cases hl : seqLoop k.toNat (obs.length / 10000) fuel (initGroups k.toNat rands obs) with
  | none => rw [hl] at h; simp at h
  | some r =>
    rw [hl] at h
    rcases r with ⟨cs', obs'', ch⟩
    simp only [Option.map_some', Option.some.injEq, Prod.mk.injEq] at h
    obtain ⟨h1, h2⟩ := h
    subst h1; subst h2
    obtain ⟨hch, prev, hprev⟩ := seqLoop_exit k.toNat (obs.length / 10000) fuel _ _ _ _ hl
    rw [seqIter] at hprev
    simp only [Prod.mk.injEq] at hprev
    obtain ⟨hcs, hobs, _⟩ := hprev
    constructor
    · exact ⟨ch, hch, rfl⟩
    · rw [← hobs, hcs]
      rw [assignStep_rerun]
      exact Nat.zero_le _

/-- C3 (witness): the post-hoc convergence bound at the four-point
scenario of the specification, initial labels {0,0,1,1}, which converges
in one iteration. -/
theorem C3_witness :
    (∃ ch, ch ≤ ([⟨0, 0, 0⟩, ⟨0, 1, 0⟩, ⟨10, 0, 0⟩, ⟨10, 1, 0⟩] : List Obs).length / 10000 ∧
      seqLoop (2 : ℤ).toNat
          (([⟨0, 0, 0⟩, ⟨0, 1, 0⟩, ⟨10, 0, 0⟩, ⟨10, 1, 0⟩] : List Obs).length / 10000) 2
          (initGroups (2 : ℤ).toNat (fun j => j / 2)
            [⟨0, 0, 0⟩, ⟨0, 1, 0⟩, ⟨10, 0, 0⟩, ⟨10, 1, 0⟩]) =
        some ([⟨F.fin 0, F.fin (1 / 2), 2⟩, ⟨F.fin 10, F.fin (1 / 2), 2⟩],
              [⟨0, 0, 0⟩, ⟨0, 1, 0⟩, ⟨10, 0, 1⟩, ⟨10, 1, 1⟩], ch)) ∧
    (assignStep [⟨F.fin 0, F.fin (1 / 2), 2⟩, ⟨F.fin 10, F.fin (1 / 2), 2⟩]
        [⟨0, 0, 0⟩, ⟨0, 1, 0⟩, ⟨10, 0, 1⟩, ⟨10, 1, 1⟩]).2 ≤
      ([⟨0, 0, 0⟩, ⟨0, 1, 0⟩, ⟨10, 0, 0⟩, ⟨10, 1, 0⟩] : List Obs).length / 10000 :=
  C3_convergence [⟨0, 0, 0⟩, ⟨0, 1, 0⟩, ⟨10, 0, 0⟩, ⟨10, 1, 0⟩] 2 (fun j => j / 2) 2
    [⟨F.fin 0, F.fin (1 / 2), 2⟩, ⟨F.fin 10, F.fin (1 / 2), 2⟩]
    [⟨0, 0, 0⟩, ⟨0, 1, 0⟩, ⟨10, 0, 1⟩, ⟨10, 1, 1⟩]
    (by norm_num) (by norm_num)
    (by norm_num [kMeans, seqLoop, seqIter, accumulate, addObs, assignStep,
      calculateNearst, nearstAux, distF, divideAll, resetClusters, initGroups,
      initGroupsAux, Fadd, Fsub, Fmul, Fdiv, Flt, DBL_MAX, List.replicate,
      List.set, Int.toNat_ofNat])

theorem sumCounts_nil : sumCounts [] = 0 := rfl

theorem sumCounts_cons (c : Cluster) (cs : List Cluster) :
    sumCounts (c :: cs) = c.count + sumCounts cs := by
  simp [sumCounts]

theorem sumCounts_reset (k : ℕ) : sumCounts (resetClusters k) = 0 := by
  induction k with
  | zero => rfl
  | succ n ih =>
    rw [resetClusters, List.replicate_succ, sumCounts_cons]
    rw [resetClusters] at ih
    simp [ih]

theorem sumCounts_singleton (obs : List Obs) :
    ∀ k : ℕ, sumCounts (singletonClusters k obs) = obs.length := by
  induction obs with
  | nil =>
    intro k
    rw [singletonClusters]
    simp only [List.map_nil, List.nil_append, Nat.sub_zero, List.length_nil]
    induction k with
    | zero => rfl
    | succ n ihk => rw [List.replicate_succ, sumCounts_cons]; simpa using ihk
  | cons o os ih =>
    intro k
    rw [singletonClusters_cons, sumCounts_cons, ih (k - 1)]
    show 1 + os.length = os.length + 1
    omega

theorem sumCounts_set_succ (cs : List Cluster) :
    ∀ (n : ℕ) (c : Cluster) (x y : F), cs[n]? = some c →
      sumCounts (cs.set n ⟨x, y, c.count + 1⟩) = sumCounts cs + 1 := by
  induction cs with
  | nil => intro n c x y h; simp at h
  | cons c0 rest ih =>
    intro n c x y h
    cases n with
    | zero =>
      simp only [List.getElem?_cons_zero, Option.some.injEq] at h
      subst h
      rw [List.set_cons_zero, sumCounts_cons, sumCounts_cons]
      show c0.count + 1 + sumCounts rest = c0.count + sumCounts rest + 1
      omega
    | succ n' =>
      simp only [List.getElem?_cons_succ] at h
      rw [List.set_cons_succ, sumCounts_cons, sumCounts_cons, ih n' c x y h]
      omega

theorem sumCounts_addObs (cs : List Cluster) (o : Obs)
    (h0 : 0 ≤ o.group) (h1 : o.group < (cs.length : ℤ)) :
    sumCounts (addObs cs o) = sumCounts cs + 1 := by
  rw [addObs, if_neg (by omega)]
  have hlt : o.group.toNat < cs.length := by omega
  obtain ⟨c, hc⟩ : ∃ c, cs[o.group.toNat]? = some c :=
    ⟨cs[o.group.toNat], List.getElem?_eq_getElem hlt⟩
  rw [hc]
  exact sumCounts_set_succ cs o.group.toNat c _ _ hc

theorem sumCounts_accumulate (obs : List Obs) :
    ∀ cs : List Cluster, (∀ o ∈ obs, 0 ≤ o.group ∧ o.group < (cs.length : ℤ)) →
      sumCounts (accumulate cs obs) = sumCounts cs + obs.length := by
  induction obs with
  | nil => intro cs _; simp [accumulate]
  | cons o os ih =>
    intro cs hg
    obtain ⟨h0, h1⟩ := hg o (List.mem_cons_self o os)
    rw [accumulate, List.foldl_cons]
    have hlen : (addObs cs o).length = cs.length := addObs_length cs o
    have := ih (addObs cs o) (by
      intro o' ho'
      rw [hlen]
      exact hg o' (List.mem_cons_of_mem o ho'))
    rw [accumulate] at this
    rw [this, sumCounts_addObs cs o h0 h1]
    simp only [List.length_cons]
    omega

theorem sumCounts_divideAll (cs : List Cluster) :
    sumCounts (divideAll cs) = sumCounts cs := by
  induction cs with
  | nil => rfl
  | cons c rest ih =>
    rw [divideAll, List.map_cons, sumCounts_cons, sumCounts_cons]
    rw [divideAll] at ih
    rw [ih]

theorem accumulate_length (obs : List Obs) :
    ∀ cs : List Cluster, (accumulate cs obs).length = cs.length := by
  induction obs with
  | nil => intro cs; rfl
  | cons o os ih =>
    intro cs
    rw [accumulate, List.foldl_cons]
    have := ih (addObs cs o)
    rw [accumulate] at this
    rw [this, addObs_length]

theorem divideAll_length (cs : List Cluster) :
    (divideAll cs).length = cs.length := by
  simp [divideAll]

theorem assignStep_length (cs : List Cluster) (obs : List Obs) :
    (assignStep cs obs).1.length = obs.length := by
  rw [assignStep_fst, List.length_map]

theorem SumsBounded_reset (B : ℚ) (k : ℕ) : SumsBounded B (resetClusters k) := by
  intro c hc
  rw [resetClusters] at hc
  have := List.eq_of_mem_replicate hc
  subst this
  exact ⟨0, 0, rfl, rfl, by simp, by simp⟩

theorem SumsBounded_addObs (B : ℚ) (cs : List Cluster) (o : Obs)
    (hox : |o.x| ≤ B) (hoy : |o.y| ≤ B) (h : SumsBounded B cs) :
    SumsBounded B (addObs cs o) := by
  rw [addObs]
  by_cases hneg : o.group < 0
  · rw [if_pos hneg]; exact h
  · rw [if_neg hneg]
    cases hc : cs[o.group.toNat]? with
    | none => exact h
    | some c =>
      intro c' hc'
      rcases List.mem_or_eq_of_mem_set hc' with hmem | rfl
      · exact h c' hmem
      · obtain ⟨a, b, hax, hby, hba, hbb⟩ := h c (List.getElem?_mem hc)
        refine ⟨a + o.x, b + o.y, by rw [hax]; rfl, by rw [hby]; rfl, ?_, ?_⟩
        · show |a + o.x| ≤ ((c.count + 1 : ℕ) : ℚ) * B
          push_cast
          calc |a + o.x| ≤ |a| + |o.x| := abs_add a o.x
            _ ≤ (c.count : ℚ) * B + B := add_le_add hba hox
            _ = ((c.count : ℚ) + 1) * B := by ring
        · show |b + o.y| ≤ ((c.count + 1 : ℕ) : ℚ) * B
          push_cast
          calc |b + o.y| ≤ |b| + |o.y| := abs_add b o.y
            _ ≤ (c.count : ℚ) * B + B := add_le_add hbb hoy
            _ = ((c.count : ℚ) + 1) * B := by ring

theorem SumsBounded_accumulate (B : ℚ) (obs : List Obs) :
    ∀ cs : List Cluster, CoordsBounded B obs → SumsBounded B cs →
      SumsBounded B (accumulate cs obs) := by
  induction obs with
  | nil => intro cs _ h; exact h
  | cons o os ih =>
    intro cs hb h
    obtain ⟨hox, hoy⟩ := hb o (List.mem_cons_self o os)
    rw [accumulate, List.foldl_cons]
    have hb' : CoordsBounded B os := fun o' ho' => hb o' (List.mem_cons_of_mem o ho')
    exact ih (addObs cs o) hb' (SumsBounded_addObs B cs o hox hoy h)

theorem CentroidsBounded_divideAll (B : ℚ) (cs : List Cluster)
    (h : SumsBounded B cs) : CentroidsBounded B (divideAll cs) := by
  intro c' hc' hcount
  rw [divideAll] at hc'
  obtain ⟨c, hc, rfl⟩ := List.mem_map.mp hc'
  obtain ⟨a, b, hax, hby, hba, hbb⟩ := h c hc
  have hc0 : c.count ≠ 0 := hcount
  have hpos : (0 : ℚ) < (c.count : ℚ) := by exact_mod_cast Nat.pos_of_ne_zero hc0
  have hne : ((c.count : ℚ)) ≠ 0 := ne_of_gt hpos
  refine ⟨a / (c.count : ℚ), b / (c.count : ℚ), ?_, ?_, ?_, ?_⟩
  · show Fdiv c.x (F.fin (c.count : ℚ)) = F.fin (a / (c.count : ℚ))
    rw [hax, Fdiv, if_neg hne]
  · show Fdiv c.y (F.fin (c.count : ℚ)) = F.fin (b / (c.count : ℚ))
    rw [hby, Fdiv, if_neg hne]
  · rw [abs_div, abs_of_pos hpos, div_le_iff₀ hpos]
    calc |a| ≤ (c.count : ℚ) * B := hba
      _ = B * (c.count : ℚ) := by ring
  · rw [abs_div, abs_of_pos hpos, div_le_iff₀ hpos]
    calc |b| ≤ (c.count : ℚ) * B := hbb
      _ = B * (c.count : ℚ) := by ring

theorem exists_nonempty_cluster (cs : List Cluster) (h : sumCounts cs ≠ 0) :
    ∃ c ∈ cs, c.count ≠ 0 := by
  induction cs with
  | nil => exact absurd rfl h
  | cons c rest ih =>
    rw [sumCounts_cons] at h
    by_cases hc : c.count = 0
    · rw [hc] at h
      obtain ⟨c', hc', h0⟩ := ih (by omega)
      exact ⟨c', List.mem_cons_of_mem c hc', h0⟩
    · exact ⟨c, List.mem_cons_self c rest, hc⟩

theorem sqDist_le (B px py a b : ℚ) (h1 : |px| ≤ B) (h2 : |py| ≤ B)
    (h3 : |a| ≤ B) (h4 : |b| ≤ B) : sqDist px py a b ≤ 8 * B ^ 2 := by
  obtain ⟨h1a, h1b⟩ := abs_le.mp h1
  obtain ⟨h2a, h2b⟩ := abs_le.mp h2
  obtain ⟨h3a, h3b⟩ := abs_le.mp h3
  obtain ⟨h4a, h4b⟩ := abs_le.mp h4
  rw [sqDist]
  nlinarith [sq_nonneg (a - px), sq_nonneg (b - py), sq_nonneg (a + px),
    sq_nonneg (b + py)]

theorem assignStep_groups_in (cs : List Cluster) (obs : List Obs)
    (hreach : ∀ o ∈ obs, ∃ c ∈ cs, ∃ a b, c.x = F.fin a ∧ c.y = F.fin b ∧
      sqDist o.x o.y a b < DBL_MAX) :
    ∀ o ∈ (assignStep cs obs).1, 0 ≤ o.group ∧ o.group < (cs.length : ℤ) := by
  induction obs with
  | nil => intro o ho; simp [assignStep] at ho
  | cons o' os ih =>
    intro o ho
    rw [assignStep] at ho
    rcases List.mem_cons.mp ho with rfl | hmem
    · obtain ⟨j, hj, heq⟩ :=
        calculateNearst_in_range o' cs (hreach o' (List.mem_cons_self o' os))
      simp only [heq]
      exact ⟨Int.ofNat_nonneg j, by exact_mod_cast hj⟩
    · exact ih (fun o ho => hreach o (List.mem_cons_of_mem o' ho)) o hmem

theorem assignStep_coords (B : ℚ) (cs : List Cluster) (obs : List Obs)
    (hb : CoordsBounded B obs) : CoordsBounded B (assignStep cs obs).1 := by
  intro o' ho'
  rw [assignStep_fst] at ho'
  obtain ⟨o, ho, rfl⟩ := List.mem_map.mp ho'
  exact hb o ho

/-- One sequential iteration in the bounded regime: the new clusters
account for every point, and the new labelling is again in range with the
same coordinates. -/
theorem seqIter_inv (k : ℕ) (B : ℚ) (obs : List Obs)
    (hne : obs ≠ []) (hg : GroupsIn k obs) (hb : CoordsBounded B obs)
    (hB : 8 * B ^ 2 < DBL_MAX) :
    sumCounts (seqIter k obs).1 = obs.length ∧
    GroupsIn k (seqIter k obs).2.1 ∧
    CoordsBounded B (seqIter k obs).2.1 ∧
    (seqIter k obs).2.1.length = obs.length := by
  have hlenr : (resetClusters k).length = k := by
    rw [resetClusters]; exact List.length_replicate _ _
  have hlen0 : (accumulate (resetClusters k) obs).length = k := by
    rw [accumulate_length]; exact hlenr
  have hsum0 : sumCounts (accumulate (resetClusters k) obs) = obs.length := by
    rw [sumCounts_accumulate obs (resetClusters k)
      (by intro o ho; rw [hlenr]; exact hg o ho), sumCounts_reset]
    omega
  have hsumD : sumCounts (divideAll (accumulate (resetClusters k) obs)) = obs.length := by
    rw [sumCounts_divideAll]; exact hsum0
  have hlenD : (divideAll (accumulate (resetClusters k) obs)).length = k := by
    rw [divideAll_length]; exact hlen0
  have hCB : CentroidsBounded B (divideAll (accumulate (resetClusters k) obs)) :=
    CentroidsBounded_divideAll B _
      (SumsBounded_accumulate B obs (resetClusters k) hb (SumsBounded_reset B k))
  have hnz : sumCounts (divideAll (accumulate (resetClusters k) obs)) ≠ 0 := by
    rw [hsumD]
    exact fun h0 => hne (List.length_eq_zero.mp h0)
  obtain ⟨c, hcD, hc0⟩ := exists_nonempty_cluster _ hnz
  obtain ⟨a, b, hax, hby, hba, hbb⟩ := hCB c hcD hc0
  have hreach : ∀ o ∈ obs, ∃ c' ∈ divideAll (accumulate (resetClusters k) obs),
      ∃ a' b', c'.x = F.fin a' ∧ c'.y = F.fin b' ∧
        sqDist o.x o.y a' b' < DBL_MAX := by
    intro o ho
    obtain ⟨hox, hoy⟩ := hb o ho
    exact ⟨c, hcD, a, b, hax, hby,
      lt_of_le_of_lt (sqDist_le B o.x o.y a b hox hoy hba hbb) hB⟩
  refine ⟨hsumD, ?_, ?_, ?_⟩
  · intro o ho
    have := assignStep_groups_in _ obs hreach o ho
    rw [hlenD] at this
    exact this
  · exact assignStep_coords B _ obs hb
  · exact assignStep_length _ obs

/-- Through the whole convergence loop, the returned clusters account for
every point. -/
theorem seqLoop_sum (k minErr : ℕ) (B : ℚ) (hB : 8 * B ^ 2 < DBL_MAX) :
    ∀ (fuel : ℕ) (obs : List Obs) (cs : List Cluster) (obs' : List Obs) (ch : ℕ),
      obs ≠ [] → GroupsIn k obs → CoordsBounded B obs →
      seqLoop k minErr fuel obs = some (cs, obs', ch) →
      sumCounts cs = obs.length := by
  intro fuel
  induction fuel with
  | zero =>
    intro obs cs obs' ch _ _ _ h
    rw [seqLoop] at h
    exact absurd h (by simp)
  | succ n ih =>
    intro obs cs obs' ch hne hg hb h
    rw [seqLoop] at h
    obtain ⟨hsum, hg', hb', hlen⟩ := seqIter_inv k B obs hne hg hb hB
    by_cases hgt : (seqIter k obs).2.2 > minErr
    · rw [if_pos hgt] at h
      have hne' : (seqIter k obs).2.1 ≠ [] := by
        intro hnil
        rw [hnil] at hlen
        exact hne (List.length_eq_zero.mp hlen.symm)
      have := ih _ _ _ _ hne' hg' hb' h
      rw [this, hlen]
    · rw [if_neg hgt] at h
      have heq : seqIter k obs = (cs, obs', ch) := by simpa using h
      have h1 : (seqIter k obs).1 = cs := by rw [heq]
      rw [← h1]
      exact hsum

theorem initGroupsAux_length (k : ℕ) (rands : ℕ → ℕ) :
    ∀ (obs : List Obs) (j : ℕ), (initGroupsAux k rands j obs).length = obs.length := by
  intro obs
  induction obs with
  | nil => intro j; rfl
  | cons o os ih => intro j; rw [initGroupsAux]; simp [ih (j + 1)]

theorem initGroupsAux_coords (k : ℕ) (rands : ℕ → ℕ) :
    ∀ (obs : List Obs) (j : ℕ) (o' : Obs), o' ∈ initGroupsAux k rands j obs →
      ∃ o ∈ obs, o'.x = o.x ∧ o'.y = o.y := by
  intro obs
  induction obs with
  | nil => intro j o' ho'; simp [initGroupsAux] at ho'
  | cons o os ih =>
    intro j o' ho'
    rw [initGroupsAux] at ho'
    rcases List.mem_cons.mp ho' with rfl | hmem
    · exact ⟨o, List.mem_cons_self o os, rfl, rfl⟩
    · obtain ⟨o0, ho0, h1, h2⟩ := ih (j + 1) o' hmem
      exact ⟨o0, List.mem_cons_of_mem o ho0, h1, h2⟩

theorem divideGuarded_length (cs : List Cluster) :
    (divideGuarded cs).length = cs.length := by
  simp [divideGuarded]

theorem sumCounts_divideGuarded (cs : List Cluster) :
    sumCounts (divideGuarded cs) = sumCounts cs := by
  induction cs with
  | nil => rfl
  | cons c rest ih =>
    rw [divideGuarded, List.map_cons, sumCounts_cons, sumCounts_cons]
    rw [divideGuarded] at ih
    by_cases hc : 0 < c.count
    · rw [if_pos hc, ih]
    · rw [if_neg hc, ih]

theorem CentroidsBounded_divideGuarded (B : ℚ) (cs : List Cluster)
    (h : SumsBounded B cs) : CentroidsBounded B (divideGuarded cs) := by
  intro c' hc' hcount
  rw [divideGuarded] at hc'
  obtain ⟨c, hc, heq⟩ := List.mem_map.mp hc'
  obtain ⟨a, b, hax, hby, hba, hbb⟩ := h c hc
  by_cases hpos : 0 < c.count
  · rw [if_pos hpos] at heq
    subst heq
    have hposq : (0 : ℚ) < (c.count : ℚ) := by exact_mod_cast hpos
    have hne : ((c.count : ℚ)) ≠ 0 := ne_of_gt hposq
    refine ⟨a / (c.count : ℚ), b / (c.count : ℚ), ?_, ?_, ?_, ?_⟩
    · show Fdiv c.x (F.fin (c.count : ℚ)) = F.fin (a / (c.count : ℚ))
      rw [hax, Fdiv, if_neg hne]
    · show Fdiv c.y (F.fin (c.count : ℚ)) = F.fin (b / (c.count : ℚ))
      rw [hby, Fdiv, if_neg hne]
    · rw [abs_div, abs_of_pos hposq, div_le_iff₀ hposq]
      calc |a| ≤ (c.count : ℚ) * B := hba
        _ = B * (c.count : ℚ) := by ring
    · rw [abs_div, abs_of_pos hposq, div_le_iff₀ hposq]
      calc |b| ≤ (c.count : ℚ) * B := hbb
        _ = B * (c.count : ℚ) := by ring
  · rw [if_neg hpos] at heq
    subst heq
    exact absurd (Nat.eq_zero_of_not_pos hpos) hcount

/-- One thread-parallel iteration in the bounded regime: identical to the
sequential invariant, with the guarded division. -/
theorem ompIter_inv (k : ℕ) (B : ℚ) (obs : List Obs)
    (hne : obs ≠ []) (hg : GroupsIn k obs) (hb : CoordsBounded B obs)
    (hB : 8 * B ^ 2 < DBL_MAX) :
    sumCounts (ompIter k obs).1 = obs.length ∧
    GroupsIn k (ompIter k obs).2.1 ∧
    CoordsBounded B (ompIter k obs).2.1 ∧
    (ompIter k obs).2.1.length = obs.length := by
  have hlenr : (resetClusters k).length = k := by
    rw [resetClusters]; exact List.length_replicate _ _
  have hlen0 : (accumulate (resetClusters k) obs).length = k := by
    rw [accumulate_length]; exact hlenr
  have hsum0 : sumCounts (accumulate (resetClusters k) obs) = obs.length := by
    rw [sumCounts_accumulate obs (resetClusters k)
      (by intro o ho; rw [hlenr]; exact hg o ho), sumCounts_reset]
    omega
  have hsumD : sumCounts (divideGuarded (accumulate (resetClusters k) obs)) = obs.length := by
    rw [sumCounts_divideGuarded]; exact hsum0
  have hlenD : (divideGuarded (accumulate (resetClusters k) obs)).length = k := by
    rw [divideGuarded_length]; exact hlen0
  have hCB : CentroidsBounded B (divideGuarded (accumulate (resetClusters k) obs)) :=
    CentroidsBounded_divideGuarded B _
      (SumsBounded_accumulate B obs (resetClusters k) hb (SumsBounded_reset B k))
  have hnz : sumCounts (divideGuarded (accumulate (resetClusters k) obs)) ≠ 0 := by
    rw [hsumD]
    exact fun h0 => hne (List.length_eq_zero.mp h0)
  obtain ⟨c, hcD, hc0⟩ := exists_nonempty_cluster _ hnz
  obtain ⟨a, b, hax, hby, hba, hbb⟩ := hCB c hcD hc0
  have hreach : ∀ o ∈ obs, ∃ c' ∈ divideGuarded (accumulate (resetClusters k) obs),
      ∃ a' b', c'.x = F.fin a' ∧ c'.y = F.fin b' ∧
        sqDist o.x o.y a' b' < DBL_MAX := by
    intro o ho
    obtain ⟨hox, hoy⟩ := hb o ho
    exact ⟨c, hcD, a, b, hax, hby,
      lt_of_le_of_lt (sqDist_le B o.x o.y a b hox hoy hba hbb) hB⟩
  refine ⟨hsumD, ?_, ?_, ?_⟩
  · intro o ho
    have := assignStep_groups_in _ obs hreach o ho
    rw [hlenD] at this
    exact this
  · exact assignStep_coords B _ obs hb
  · exact assignStep_length _ obs

/-- Through the thread-parallel convergence loop, the returned clusters
account for every point. -/
theorem ompLoop_sum (k minErr : ℕ) (B : ℚ) (hB : 8 * B ^ 2 < DBL_MAX) :
    ∀ (fuel : ℕ) (obs : List Obs) (cs : List Cluster) (obs' : List Obs) (ch : ℕ),
      obs ≠ [] → GroupsIn k obs → CoordsBounded B obs →
      ompLoop k minErr fuel obs = some (cs, obs', ch) →
      sumCounts cs = obs.length := by
  intro fuel
  induction fuel with
  | zero =>
    intro obs cs obs' ch _ _ _ h
    rw [ompLoop] at h
    exact absurd h (by simp)
  | succ n ih =>
    intro obs cs obs' ch hne hg hb h
    rw [ompLoop] at h
    obtain ⟨hsum, hg', hb', hlen⟩ := ompIter_inv k B obs hne hg hb hB
    by_cases hgt : (ompIter k obs).2.2 > minErr
    · rw [if_pos hgt] at h
      have hne' : (ompIter k obs).2.1 ≠ [] := by
        intro hnil
        rw [hnil] at hlen
        exact hne (List.length_eq_zero.mp hlen.symm)
      have := ih _ _ _ _ hne' hg' hb' h
      rw [this, hlen]
    · rw [if_neg hgt] at h
      have heq : ompIter k obs = (cs, obs', ch) := by simpa using h
      have h1 : (ompIter k obs).1 = cs := by rw [heq]
      rw [← h1]
      exact hsum

/-- The thread-parallel loop started from the random initialisation
returns clusters accounting for every point. -/
theorem ompLoop_sum_init (obs : List Obs) (k : ℤ) (rands : ℕ → ℕ) (fuel : ℕ)
    (B : ℚ) (cs : List Cluster) (obs' : List Obs) (ch : ℕ)
    (hB : 8 * B ^ 2 < DBL_MAX) (hbd : CoordsBounded B obs)
    (hk : 2 ≤ k) (hne : obs ≠ [])
    (hl : ompLoop k.toNat (obs.length / 10000) fuel (initGroups k.toNat rands obs) =
      some (cs, obs', ch)) :
    sumCounts cs = obs.length := by
  have hleni : (initGroups k.toNat rands obs).length = obs.length :=
    initGroupsAux_length k.toNat rands obs 0
  have hn1 : obs.length ≠ 0 := fun h0 => hne (List.length_eq_zero.mp h0)
  have hnei : initGroups k.toNat rands obs ≠ [] := by
    intro hnil
    rw [hnil] at hleni
    exact hn1 hleni.symm
  have hgi : GroupsIn k.toNat (initGroups k.toNat rands obs) := by
    intro o ho
    exact initGroupsAux_mem k.toNat rands (by omega) obs 0 o ho
  have hbi : CoordsBounded B (initGroups k.toNat rands obs) := by
    intro o' ho'
    obtain ⟨o, ho, h1, h2⟩ := initGroupsAux_coords k.toNat rands obs 0 o' ho'
    rw [h1, h2]
    exact hbd o ho
  have := ompLoop_sum k.toNat (obs.length / 10000) B hB fuel _ _ _ _
    hnei hgi hbi hl
  rw [this, hleni]

/-- On the k >= n inputs both the sequential and the thread-parallel
engine take literally the same branch (the shared k <= 1 computation or
the shared singleton branch), so the two calls are equal. -/
theorem kMeans_omp_eq_kMeans_of_ge (obs : List Obs) (k : ℤ) (rands : ℕ → ℕ)
    (fuel : ℕ) (hkn : (obs.length : ℤ) ≤ k) :
    kMeans_omp obs k rands fuel = kMeans obs k rands fuel := by
  by_cases hk1 : k ≤ 1
  · rw [kMeans, kMeans_omp, if_pos hk1, if_pos hk1]
    rfl
  · have hkn' : ¬ k < (obs.length : ℤ) := not_lt.mpr hkn
    rw [kMeans, kMeans_omp, if_neg hk1, if_neg hkn', if_neg hk1, if_neg hkn']

/-- C6: for every input with k >= n, the thread-parallel engine computes
exactly the same result as the sequential engine (they share the k <= 1
computation and the singleton branch), and that result has exactly n
clusters with non-zero member count; for every i < n, cluster i is the
singleton of point i (member count 1) and point i gets label i.  This
also covers the k <= 1 sub-cases n = 0 (one empty NaN cluster, zero
non-empty clusters) and n = 1 (the mean of one point is that point).  No
convergence iteration is performed in these branches. -/
theorem C6_singletons (obs : List Obs) (k : ℤ) (rands : ℕ → ℕ) (fuel : ℕ)
    (cs : List Cluster) (obs₂ : List Obs)
    (hkn : (obs.length : ℤ) ≤ k)
    (h : kMeans obs k rands fuel = some (cs, obs₂)) :
    kMeans_omp obs k rands fuel = some (cs, obs₂) ∧
    nonemptyCount cs = obs.length ∧
    ∀ j, j < obs.length →
      cs.getD j cDefault =
        ⟨F.fin ((obs.getD j oDefault).x), F.fin ((obs.getD j oDefault).y), 1⟩ ∧
      ((obs₂.getD j oDefault).group = (j : ℤ)) := by
  refine ⟨by rw [kMeans_omp_eq_kMeans_of_ge obs k rands fuel hkn]; exact h, ?_⟩
  by_cases hk1 : k ≤ 1
  · rw [kMeans, if_pos hk1] at h
    cases obs with
    | nil =>
      simp only [Option.some.injEq, Prod.mk.injEq] at h
      obtain ⟨h1, h2⟩ := h
      subst h1; subst h2
      constructor
      · norm_num [calculateCentroid, nonemptyCount, Fdiv]
      · intro j hj; simp at hj
    | cons o os =>
      cases os with
      | nil =>
        simp only [Option.some.injEq, Prod.mk.injEq] at h
        obtain ⟨h1, h2⟩ := h
        subst h1; subst h2
        constructor
        · norm_num [calculateCentroid, nonemptyCount]
        · intro j hj
          simp only [List.length_cons, List.length_nil, Nat.lt_succ_iff,
            Nat.le_zero] at hj
          subst hj
          constructor
          · norm_num [calculateCentroid, Fdiv]
          · rfl
      | cons o2 os2 =>
        exfalso
        have : (2 : ℤ) ≤ (o :: o2 :: os2).length := by
          simp only [List.length_cons]
          push_cast
          omega
        omega
  · have hkn' : ¬ k < (obs.length : ℤ) := by omega
    rw [kMeans, if_neg hk1, if_neg hkn'] at h
    simp only [Option.some.injEq, Prod.mk.injEq] at h
    obtain ⟨h1, h2⟩ := h
    subst h1; subst h2
    refine ⟨nonemptyCount_singleton obs k.toNat, ?_⟩
    intro j hj
    refine ⟨singletonClusters_getD_lt obs k.toNat j hj, ?_⟩
    have := numberGroups_getD obs 0 j hj
    simpa using this

/-- C6 (witness): the singleton result, for both engines, at a concrete
call with n = 2, k = 2 (the boundary case k = n). -/
theorem C6_witness :
    kMeans_omp [⟨1, 2, 0⟩, ⟨3, 4, 0⟩] 2 (fun _ => 0) 0 =
      some (singletonClusters (2 : ℤ).toNat [⟨1, 2, 0⟩, ⟨3, 4, 0⟩],
            numberGroups 0 [⟨1, 2, 0⟩, ⟨3, 4, 0⟩]) ∧
    nonemptyCount (singletonClusters (2 : ℤ).toNat [⟨1, 2, 0⟩, ⟨3, 4, 0⟩]) =
      ([⟨1, 2, 0⟩, ⟨3, 4, 0⟩] : List Obs).length ∧
    ∀ j, j < ([⟨1, 2, 0⟩, ⟨3, 4, 0⟩] : List Obs).length →
      (singletonClusters (2 : ℤ).toNat [⟨1, 2, 0⟩, ⟨3, 4, 0⟩]).getD j cDefault =
        ⟨F.fin ((([⟨1, 2, 0⟩, ⟨3, 4, 0⟩] : List Obs).getD j oDefault).x),
         F.fin ((([⟨1, 2, 0⟩, ⟨3, 4, 0⟩] : List Obs).getD j oDefault).y), 1⟩ ∧
      (((numberGroups 0 [⟨1, 2, 0⟩, ⟨3, 4, 0⟩]).getD j oDefault).group = (j : ℤ)) :=
  C6_singletons [⟨1, 2, 0⟩, ⟨3, 4, 0⟩] 2 (fun _ => 0) 0
    (singletonClusters (2 : ℤ).toNat [⟨1, 2, 0⟩, ⟨3, 4, 0⟩])
    (numberGroups 0 [⟨1, 2, 0⟩, ⟨3, 4, 0⟩]) (by norm_num)
    (by rw [kMeans, if_neg (by norm_num), if_neg (by norm_num)])

/-- C7: on points whose coordinates are bounded well inside the double
range (so no squared distance can reach DBL_MAX, the classifier never
keeps its -1 sentinel, and the out-of-range accumulation that is
undefined behaviour in C never happens), every terminating clustering
call of every engine — sequential, thread-parallel and offload — returns
clusters whose member counts sum to the number of input points, in every
branch; moreover, at the moment an accumulation pass of any iteration
completes (both the unguarded and the offload-guarded accumulation from
the per-iteration reset) and after either division step, the counts sum
to the number of points accumulated, for any in-range labelling. -/
theorem C7_sum_of_counts (obs : List Obs) (k : ℤ) (rands : ℕ → ℕ) (fuel : ℕ)
    (B : ℚ) (hB : 8 * B ^ 2 < DBL_MAX) (hbd : CoordsBounded B obs) :
    (∀ cs obs₂, kMeans obs k rands fuel = some (cs, obs₂) →
      sumCounts cs = obs.length) ∧
    (∀ cs obs₂, kMeans_omp obs k rands fuel = some (cs, obs₂) →
      sumCounts cs = obs.length) ∧
    (∀ cs obs₂, kMeans_omp_gpu obs k rands fuel = some (cs, obs₂) →
      sumCounts cs = obs.length) ∧
    (∀ obs', GroupsIn k.toNat obs' →
      sumCounts (accumulate (resetClusters k.toNat) obs') = obs'.length ∧
      sumCounts (gpuAccumulate k.toNat (resetClusters k.toNat) obs') = obs'.length ∧
      sumCounts (divideAll (accumulate (resetClusters k.toNat) obs')) = obs'.length ∧
      sumCounts (divideGuarded (accumulate (resetClusters k.toNat) obs')) = obs'.length) := by
  have hlenr : (resetClusters k.toNat).length = k.toNat := by
    rw [resetClusters]; exact List.length_replicate _ _
  refine ⟨?_, ?_, ?_, ?_⟩
  · intro cs obs₂ h
    by_cases hk1 : k ≤ 1
    · rw [kMeans, if_pos hk1] at h
      simp only [Option.some.injEq, Prod.mk.injEq] at h
      obtain ⟨h1, _⟩ := h
      subst h1
      rw [sumCounts_cons, sumCounts_nil]
      show obs.length + 0 = obs.length
      omega
    · by_cases hn : k < (obs.length : ℤ)
      · rw [kMeans, if_neg hk1, if_pos hn] at h
        cases hl : seqLoop k.toNat (obs.length / 10000) fuel (initGroups k.toNat rands obs) with
        | none => rw [hl] at h; simp at h
        | some r =>
          rw [hl] at h
          rcases r with ⟨cs', obs'', ch⟩
          simp only [Option.map_some', Option.some.injEq, Prod.mk.injEq] at h
          obtain ⟨h1, _⟩ := h
          subst h1
          have hleni : (initGroups k.toNat rands obs).length = obs.length :=
            initGroupsAux_length k.toNat rands obs 0
          have hnei : initGroups k.toNat rands obs ≠ [] := by
            intro hnil
            rw [hnil] at hleni
            have : obs.length = 0 := hleni.symm
            omega
          have hgi : GroupsIn k.toNat (initGroups k.toNat rands obs) := by
            intro o ho
            exact initGroupsAux_mem k.toNat rands (by omega) obs 0 o ho
          have hbi : CoordsBounded B (initGroups k.toNat rands obs) := by
            intro o' ho'
            obtain ⟨o, ho, h1, h2⟩ := initGroupsAux_coords k.toNat rands obs 0 o' ho'
            rw [h1, h2]
            exact hbd o ho
          have := seqLoop_sum k.toNat (obs.length / 10000) B hB fuel _ _ _ _
            hnei hgi hbi hl
          rw [this, hleni]
      · rw [kMeans, if_neg hk1, if_neg hn] at h
        simp only [Option.some.injEq, Prod.mk.injEq] at h
        obtain ⟨h1, _⟩ := h
        subst h1
        exact sumCounts_singleton obs k.toNat
  · intro cs obs₂ h
    by_cases hk1 : k ≤ 1
    · rw [kMeans_omp, if_pos hk1] at h
      simp only [Option.some.injEq, Prod.mk.injEq] at h
      obtain ⟨h1, _⟩ := h
      subst h1
      rw [sumCounts_cons, sumCounts_nil]
      show obs.length + 0 = obs.length
      omega
    · by_cases hn : k < (obs.length : ℤ)
      · rw [kMeans_omp, if_neg hk1, if_pos hn] at h
        cases hl : ompLoop k.toNat (obs.length / 10000) fuel (initGroups k.toNat rands obs) with
        | none => rw [hl] at h; simp at h
        | some r =>
          rw [hl] at h
          rcases r with ⟨cs', obs'', ch⟩
          simp only [Option.map_some', Option.some.injEq, Prod.mk.injEq] at h
          obtain ⟨h1, _⟩ := h
          subst h1
          have hne : obs ≠ [] := by
            intro hnil
            rw [hnil] at hn
            simp at hn
            omega
          exact ompLoop_sum_init obs k rands fuel B _ _ _ hB hbd (by omega) hne hl
      · rw [kMeans_omp, if_neg hk1, if_neg hn] at h
        simp only [Option.some.injEq, Prod.mk.injEq] at h
        obtain ⟨h1, _⟩ := h
        subst h1
        exact sumCounts_singleton obs k.toNat
  · intro cs obs₂ h
    by_cases hk1 : k ≤ 1
    · rw [kMeans_omp_gpu, if_pos hk1] at h
      simp only [Option.some.injEq, Prod.mk.injEq] at h
      obtain ⟨h1, _⟩ := h
      subst h1
      rw [sumCounts_cons, sumCounts_nil]
      show obs.length + 0 = obs.length
      omega
    · rw [kMeans_omp_gpu, if_neg hk1] at h
      by_cases hnil : obs = []
      · subst hnil
        have hinil : initGroups k.toNat rands ([] : List Obs) = [] := rfl
        rw [hinil] at h
        cases fuel with
        | zero => rw [gpuLoop] at h; simp at h
        | succ n =>
          rw [gpuLoop] at h
          have hit : gpuIter k.toNat [] = (divideGuarded (resetClusters k.toNat), [], 0) := rfl
          rw [hit] at h
          rw [if_neg (by show ¬ (0 : ℕ) > ([] : List Obs).length / 10000; simp)] at h
          simp only [Option.map_some', Option.some.injEq, Prod.mk.injEq] at h
          obtain ⟨h1, _⟩ := h
          subst h1
          rw [sumCounts_divideGuarded, sumCounts_reset]
          rfl
      · rw [gpuLoop_eq] at h
        cases hl : ompLoop k.toNat (obs.length / 10000) fuel (initGroups k.toNat rands obs) with
        | none => rw [hl] at h; simp at h
        | some r =>
          rw [hl] at h
          rcases r with ⟨cs', obs'', ch⟩
          simp only [Option.map_some', Option.some.injEq, Prod.mk.injEq] at h
          obtain ⟨h1, _⟩ := h
          subst h1
          exact ompLoop_sum_init obs k rands fuel B _ _ _ hB hbd (by omega) hnil hl
  · intro obs' hg'
    have h1 : sumCounts (accumulate (resetClusters k.toNat) obs') = obs'.length := by
      rw [sumCounts_accumulate obs' (resetClusters k.toNat)
        (by intro o ho; rw [hlenr]; exact hg' o ho), sumCounts_reset]
      omega
    refine ⟨h1, ?_, ?_, ?_⟩
    · rw [gpuAccumulate_eq k.toNat obs' (resetClusters k.toNat) hlenr]
      exact h1
    · rw [sumCounts_divideAll]
      exact h1
    · rw [sumCounts_divideGuarded]
      exact h1

/-- C7 (witness): the count-sum property instantiated at a concrete
one-point input with k = 5 and coordinate bound B = 1. -/
theorem C7_witness :
    (∀ cs obs₂, kMeans [⟨0, 0, 0⟩] 5 (fun _ => 0) 0 = some (cs, obs₂) →
      sumCounts cs = ([⟨0, 0, 0⟩] : List Obs).length) ∧
    (∀ cs obs₂, kMeans_omp [⟨0, 0, 0⟩] 5 (fun _ => 0) 0 = some (cs, obs₂) →
      sumCounts cs = ([⟨0, 0, 0⟩] : List Obs).length) ∧
    (∀ cs obs₂, kMeans_omp_gpu [⟨0, 0, 0⟩] 5 (fun _ => 0) 0 = some (cs, obs₂) →
      sumCounts cs = ([⟨0, 0, 0⟩] : List Obs).length) ∧
    (∀ obs', GroupsIn (5 : ℤ).toNat obs' →
      sumCounts (accumulate (resetClusters (5 : ℤ).toNat) obs') = obs'.length ∧
      sumCounts (gpuAccumulate (5 : ℤ).toNat (resetClusters (5 : ℤ).toNat) obs') =
        obs'.length ∧
      sumCounts (divideAll (accumulate (resetClusters (5 : ℤ).toNat) obs')) =
        obs'.length ∧
      sumCounts (divideGuarded (accumulate (resetClusters (5 : ℤ).toNat) obs')) =
        obs'.length) :=
  C7_sum_of_counts [⟨0, 0, 0⟩] 5 (fun _ => 0) 0 1
    (by norm_num [DBL_MAX])
    (by
      intro o ho
      simp only [List.mem_singleton] at ho
      subst ho
      norm_num)
